import Mathlib

/-!
# openmp-tokenizer: a verification development for `tokenizer.cpp`

The program counts keyword occurrences in the files of a directory.  Producer
threads read the files line by line (`read_file`) and push every line into a
shared linked queue (`enqueue`); consumer threads pop lines (`dequeue`) and
split them into tokens that are compared with the keywords (`tokenize`).

Modelling conventions.

* A C string (`char*`) is the list of its characters before the terminating
  NUL, so a value of type `CStr` is meant to hold no NUL character.
* The heap of `list_node`s is a list; the address of a node is its index and
  `malloc` returns the first unused index.  `NULL` is `none`.
* A counter of `int table[]` is a 32-bit `int`, modelled as an integer
  together with the increment of the machine: `table[i]++` on a counter that
  holds `INT_MAX` leaves `INT_MIN` (two's-complement wrap-around, what the
  addition of the compiled program does; the C++ standard leaves it
  undefined).  A statement that holds only when no counter overflows says so
  in a hypothesis.
* Loop indices and `prod_done` are natural numbers; they are bounded by the
  number of sources plus the number of producers.
* The counter table `int table[]` is the memory starting at the table's base
  address, a function from the index to the stored value, so that a write
  `table[i]++` is visible whatever `i` is.
* A stream (`FILE*`) is the list of its unread characters, one per byte;
  `malloc` and the reads do not fail.
* The parallel region of `prod_cons` is a step function: a step is one access
  to shared memory by one thread (a critical section, an atomic increment, a
  read of `prod_done` or of `queue_head`) together with the thread's private
  computation up to its next access; every step sees the memory as the steps
  before it left it.  A schedule is any list of thread numbers, so every
  interleaving is covered.  The team has the `prod_count + cons_count` threads
  that `num_threads` asks for.
-/

namespace OmpTokenizer

/-! ## Data model -/

/-- Contents of a C string: the characters before the terminating NUL. -/
abbrev CStr := List Char

/-- Value of `CHAR_MAX` from `<limits.h>` where `char` is a signed 8-bit type
(g++ on x86, the platform named in the file header). -/
def CHAR_MAX : Nat := 127

/-- Number of counters of `int table[100]` in `main`. -/
def TABLE_SIZE : Nat := 100

/-- The `struct list_node`: a line and the address of the next node. -/
structure list_node where
  data : CStr
  next : Option Nat
deriving DecidableEq, Repr

/-- The shared queue as `prod_cons` holds it: the heap of nodes allocated so
far and the two pointers `queue_head` and `queue_tail`. -/
structure Queue where
  heap : List list_node
  queue_head : Option Nat
  queue_tail : Option Nat
deriving DecidableEq, Repr

/-- The queue at the start of `prod_cons`: `queue_head = queue_tail = NULL`. -/
def Queue.empty : Queue := { heap := [], queue_head := none, queue_tail := none }

/-- Field `p->next` of the node at address `p`. -/
def next_of (heap : List list_node) (p : Nat) : Option Nat :=
  match heap[p]? with
  | some n => n.next
  | none => none

/-- Field `p->data` of the node at address `p`. -/
def data_of (heap : List list_node) (p : Nat) : CStr :=
  match heap[p]? with
  | some n => n.data
  | none => []

/-! ## The queue operations (`enqueue`, `dequeue`) -/

/-- The function `enqueue`: a node `tmp` holding `line` is allocated, then the
critical section links it behind the tail (or makes it head and tail of an
empty queue). -/
def enqueue (line : CStr) (q : Queue) : Queue :=
  let tmp := q.heap.length
  let heap := q.heap ++ [{ data := line, next := none }]
  match q.queue_tail with
  | none => { heap := heap, queue_head := some tmp, queue_tail := some tmp }
  | some t =>
    { heap := heap.modify (fun n => { n with next := some tmp }) t
      queue_head := q.queue_head
      queue_tail := some tmp }

/-- The critical section of `dequeue` (source lines 59 to 68): returns `tmp`
and the queue after it. -/
def dequeue_critical (q : Queue) : Option Nat × Queue :=
  let tail1 :=
    if q.queue_head = q.queue_tail ∧ q.queue_head ≠ none then
      (match q.queue_tail with
       | some t => next_of q.heap t
       | none => none)
    else q.queue_tail
  match q.queue_head with
  | some h => (some h, { heap := q.heap, queue_head := next_of q.heap h, queue_tail := tail1 })
  | none => (none, { heap := q.heap, queue_head := none, queue_tail := tail1 })

/-- The function `dequeue`: the unlocked test of `queue_head` followed by the
critical section. -/
def dequeue (q : Queue) : Option Nat × Queue :=
  if q.queue_head = none then (none, q) else dequeue_critical q

/-- Addresses visited by following `next` from pointer `p`, at most `fuel`
nodes. -/
def walk (heap : List list_node) : Nat → Option Nat → List Nat
  | 0, _ => []
  | _ + 1, none => []
  | fuel + 1, some a => a :: walk heap fuel (next_of heap a)

/-- Addresses of the nodes reachable from `queue_head`, head first. -/
def Queue.nodes (q : Queue) : List Nat := walk q.heap q.heap.length q.queue_head

/-- Lines held by the queue, oldest first. -/
def Queue.lines (q : Queue) : List CStr := q.nodes.map (data_of q.heap)

/-- A call made on the shared queue. -/
inductive QueueOp where
  | enq (line : CStr)
  | deq
deriving DecidableEq, Repr

/-- One call executed alone: the queue after it and what a `dequeue` returned
(`some line` for a node, `none` for `NULL`; nothing for an `enqueue`). -/
def apply_op (q : Queue) : QueueOp → Queue × List (Option CStr)
  | .enq line => (enqueue line q, [])
  | .deq => ((dequeue q).2, [(dequeue q).1.map (data_of q.heap)])

/-- A sequence of calls executed one at a time. -/
def run_ops (q : Queue) : List QueueOp → Queue × List (Option CStr)
  | [] => (q, [])
  | op :: ops =>
    ((run_ops (apply_op q op).1 ops).1, (apply_op q op).2 ++ (run_ops (apply_op q op).1 ops).2)

/-- Lines passed to `enqueue` by a sequence of calls, in call order. -/
def enqueued_lines : List QueueOp → List CStr
  | [] => []
  | .enq line :: ops => line :: enqueued_lines ops
  | .deq :: ops => enqueued_lines ops

/-- Lines returned by the successful dequeues, in call order. -/
def dequeued_lines (outs : List (Option CStr)) : List CStr := outs.filterMap id

/-- The FIFO of the specification: a sequence of lines, `enqueue` appends at
the tail, `dequeue` removes and returns the head or signals empty. -/
def fifo_op (xs : List CStr) : QueueOp → List CStr × List (Option CStr)
  | .enq line => (xs ++ [line], [])
  | .deq =>
    match xs with
    | [] => ([], [none])
    | x :: rest => (rest, [some x])

/-- The specification's FIFO run on a sequence of calls. -/
def fifo_run (xs : List CStr) : List QueueOp → List CStr × List (Option CStr)
  | [] => (xs, [])
  | op :: ops =>
    ((fifo_run (fifo_op xs op).1 ops).1, (fifo_op xs op).2 ++ (fifo_run (fifo_op xs op).1 ops).2)

/-! ## Representation invariant of the queue -/

/-- Following `next` from pointer `p` visits exactly `addrs`, all allocated,
and then reaches `NULL`. -/
def Linked (heap : List list_node) : Option Nat → List Nat → Prop
  | p, [] => p = none
  | p, a :: rest => p = some a ∧ a < heap.length ∧ Linked heap (next_of heap a) rest

/-- The queue is a well-formed singly linked list over the addresses `addrs`:
`queue_head` starts the chain, `queue_tail` is its last node, no node occurs
twice. -/
structure QueueInv (q : Queue) (addrs : List Nat) : Prop where
  linked : Linked q.heap q.queue_head addrs
  tail : q.queue_tail = addrs.getLast?
  nodup : addrs.Nodup

/-- The queue after a sequence of calls made on the empty queue. -/
def queue_after (ops : List QueueOp) : Queue := (run_ops Queue.empty ops).1

/-- What the dequeues of a sequence of calls made on the empty queue returned,
in call order. -/
def outputs_of (ops : List QueueOp) : List (Option CStr) := (run_ops Queue.empty ops).2

/-! ## The tokenizer (`tokenize`) -/

/-- Largest value of a 32-bit `int`. -/
def INT_MAX : Int := 2147483647

/-- Smallest value of a 32-bit `int`. -/
def INT_MIN : Int := -2147483648

/-- The value of an `int` variable after `x++`: one more, except that
`INT_MAX` wraps around to `INT_MIN`. -/
def int_succ (x : Int) : Int := if x = INT_MAX then INT_MIN else x + 1

/-- The counter table `int table[]`, indexed from its base address. -/
abbrev Table := Nat → Int

/-- The table after `int table[100] = {0}`. -/
def Table.zero : Table := fun _ => 0

/-- The atomic statement `table[i]++` on the `int` counter `table[i]`. -/
def incr (table : Table) (i : Nat) : Table :=
  fun j => if j = i then int_succ (table j) else table j

/-- The library function `strtok_r(s, delim, &saveptr)` on the string `s`
(for a call with `NULL`, the string `saveptr` of the previous call): leading
delimiters are skipped; if nothing is left the result is `NULL`; otherwise the
token is the run of characters up to the next delimiter, and `saveptr` is what
follows that delimiter. -/
def strtok_r (s : CStr) (delim : List Char) : Option (CStr × CStr) :=
  match s.dropWhile (fun c => delim.contains c) with
  | [] => none
  | c :: rest =>
    some ((c :: rest).takeWhile (fun x => !delim.contains x),
      ((c :: rest).dropWhile (fun x => !delim.contains x)).tail)

/-- The `for` loop of `tokenize` (source lines 102 to 107) from index `i` on,
`kws` being the keywords `kw[i], kw[i+1], ...`: the counter of every keyword
that `strcmp` finds equal to the token is incremented. -/
def match_loop (token : CStr) : List CStr → Nat → Table → Table
  | [], _, table => table
  | k :: kws, i, table =>
    match_loop token kws (i + 1) (if token = k then incr table i else table)

/-- The `while (token != NULL)` loop of `tokenize` (source lines 98 to 110):
`tok` is the result of the last `strtok_r` call, `fuel` bounds the number of
iterations. -/
def tokenize_loop (kw : List CStr) : Nat → Option (CStr × CStr) → Table → Table
  | 0, _, table => table
  | _ + 1, none, table => table
  | fuel + 1, some (token, saveptr), table =>
    tokenize_loop kw fuel (strtok_r saveptr [' ']) (match_loop token kw 0 table)

/-- The function `tokenize(line, kw, table, id)`: the table after the call.
A line of `n` characters holds fewer than `n + 1` tokens. -/
def tokenize (line : CStr) (kw : List CStr) (table : Table) : Table :=
  tokenize_loop kw (line.length + 1) (strtok_r line [' ']) table

/-- The tokens that the `while` loop of `tokenize` takes from `strtok_r`, in
order. -/
def tokens_loop : Nat → Option (CStr × CStr) → List CStr
  | 0, _ => []
  | _ + 1, none => []
  | fuel + 1, some (token, saveptr) => token :: tokens_loop fuel (strtok_r saveptr [' '])

/-- The tokens that a call `tokenize(line, ...)` compares with the keywords. -/
def tokenize_tokens (line : CStr) : List CStr :=
  tokens_loop (line.length + 1) (strtok_r line [' '])

/-- The indices at which the `for` loop of `tokenize` executes `table[i]++`
for one token, in program order. -/
def match_indices (token : CStr) : List CStr → Nat → List Nat
  | [], _ => []
  | k :: kws, i =>
    if token = k then i :: match_indices token kws (i + 1) else match_indices token kws (i + 1)

/-- The indices of the atomic increments `table[i]++` executed by a call
`tokenize(line, kw, ...)`, in program order. -/
def tokenize_incrs (line : CStr) (kw : List CStr) : List Nat :=
  (tokenize_tokens line).flatMap (fun token => match_indices token kw 0)

/-- The specification's splitting rule with the space as only separator: the
non-empty pieces obtained by splitting the line at every space character. -/
def space_tokens (line : CStr) : List CStr :=
  (line.splitOn ' ').filter (fun piece => !piece.isEmpty)

/-- The whitespace characters the specification names: space, tab, newline,
carriage return. -/
def is_whitespace (c : Char) : Bool :=
  c == ' ' || c == '\t' || c == '\n' || c == '\r'

/-- The specification's tokens: the maximal runs of non-whitespace
characters of the line. -/
def whitespace_tokens (line : CStr) : List CStr :=
  (line.splitOnP is_whitespace).filter (fun piece => !piece.isEmpty)

/-- Number of tokens of `tokens` that are equal, character for character, to
keyword number `i` (zero when there is no such keyword). -/
def keyword_hits (kw : List CStr) (i : Nat) (tokens : List CStr) : Nat :=
  match kw[i]? with
  | some k => tokens.count k
  | none => 0

/-! ## Reading a file (`read_file`) -/

/-- What `fgets` stores: at most `k` characters of the stream, stopping after
a newline.  The result is the characters read and the rest of the stream. -/
def fgets_read : Nat → List Char → List Char × List Char
  | 0, fp => ([], fp)
  | _ + 1, [] => ([], [])
  | k + 1, c :: fp =>
    if c = '\n' then ([c], fp) else (c :: (fgets_read k fp).1, (fgets_read k fp).2)

/-- The library function `fgets(line, n, fp)` on a stream whose unread part is
`fp`: `NULL` at end of file, otherwise the buffer contents (at most `n - 1`
characters) and the stream after the call. -/
def fgets (n : Nat) (fp : List Char) : Option (List Char × List Char) :=
  match fp with
  | [] => none
  | c :: rest => some (fgets_read (n - 1) (c :: rest))

/-- The C string that a buffer holds: its characters before the first NUL. -/
def c_str (buf : List Char) : CStr := buf.takeWhile (fun c => c != Char.ofNat 0)

/-- The `while` loop of `read_file` (source lines 78 to 82); `fuel` bounds the
number of iterations. -/
def read_file_loop : Nat → List Char → Queue → Queue
  | 0, _, q => q
  | fuel + 1, fp, q =>
    match fgets CHAR_MAX fp with
    | none => q
    | some (line, rest) => read_file_loop fuel rest (enqueue (c_str line) q)

/-- The function `read_file(fp, ...)`: the queue after the call.  Every
`fgets` that does not return `NULL` consumes a character, so a stream of `n`
characters is read in at most `n` iterations. -/
def read_file (fp : List Char) (q : Queue) : Queue :=
  read_file_loop (fp.length + 1) fp q

/-- The buffers filled by the successive `fgets` calls of `read_file`. -/
def file_chunks_loop : Nat → List Char → List (List Char)
  | 0, _ => []
  | fuel + 1, fp =>
    match fgets CHAR_MAX fp with
    | none => []
    | some (line, rest) => line :: file_chunks_loop fuel rest

/-- The buffers filled by `read_file` on a stream, in order. -/
def file_chunks (fp : List Char) : List (List Char) := file_chunks_loop (fp.length + 1) fp

/-- The lines that `read_file` passes to `enqueue` for a stream, in order. -/
def file_lines (fp : List Char) : List CStr := (file_chunks fp).map c_str

/-- All lines of a list of streams, stream by stream. -/
def all_lines (files : List (List Char)) : List CStr := files.flatMap file_lines

/-! ## The worker threads of `prod_cons` -/

/-- The `for` loop of a producer (source lines 130 and 131) from index `i` on:
the queue after the loop and the indices passed to `read_file`, in order. -/
def producer_loop (prod_count : Nat) (files : List (List Char)) :
    Nat → Nat → Queue → Queue × List Nat
  | 0, _, q => (q, [])
  | fuel + 1, i, q =>
    if i < files.length then
      ((producer_loop prod_count files fuel (i + prod_count)
          (read_file (files.getD i []) q)).1,
        i :: (producer_loop prod_count files fuel (i + prod_count)
          (read_file (files.getD i []) q)).2)
    else (q, [])

/-- The producer with thread number `id` run alone: `i` starts at `id` and
grows by `prod_count >= 1`, so `file_count` iterations suffice. -/
def producer (prod_count : Nat) (files : List (List Char)) (id : Nat) (q : Queue) :
    Queue × List Nat :=
  producer_loop prod_count files files.length id q

/-- Program points of a producer thread. -/
inductive ProdPc where
  /-- Line 130, before the test `i < file_count`. -/
  | for_loop (i : Nat)
  /-- Inside `read_file(files[i])`, line 78, before the call of `fgets`. -/
  | read_fgets (i : Nat)
  /-- Inside `read_file(files[i])`, line 80, before `enqueue(line)`. -/
  | read_enqueue (i : Nat) (line : CStr)
  /-- Line 134, before the atomic `prod_done++`. -/
  | done_incr
  /-- After the last statement. -/
  | finished
deriving DecidableEq, Repr

/-- Program points of a consumer thread; `drain` tells the second loop (line
147) from the first (line 140). -/
inductive ConsPc where
  /-- Line 140, before the test `prod_done < prod_count`. -/
  | wait_loop
  /-- Line 147, before the test `queue_head != NULL`. -/
  | drain_loop
  /-- In `dequeue`, line 56, before the unlocked test `*queue_head == NULL`. -/
  | deq_test (drain : Bool)
  /-- In `dequeue`, line 59, before the critical section. -/
  | deq_critical (drain : Bool)
  /-- In `tokenize`, with the atomic increments `table[i]++` still to execute. -/
  | tokenizing (drain : Bool) (incrs : List Nat)
  /-- After the second loop. -/
  | finished
deriving DecidableEq, Repr

/-- The head of the loop a consumer is in. -/
def ConsPc.loop_head (drain : Bool) : ConsPc :=
  if drain then ConsPc.drain_loop else ConsPc.wait_loop

/-- The shared variables of `prod_cons`, the streams, and the program point of
every thread.  `enqueued` and `dequeued` are history variables (the lines
passed to `enqueue` and the lines of the nodes returned by `dequeue`, in the
order of the critical sections); no step reads them. -/
structure State where
  queue : Queue
  prod_done : Nat
  table : Table
  files : List (List Char)
  producers : List ProdPc
  consumers : List ConsPc
  enqueued : List CStr
  dequeued : List CStr

/-- One step of producer `t`, which is at program point `pc`. -/
def producer_step (prod_count : Nat) (s : State) (t : Nat) : ProdPc → State
  | .for_loop i =>
    if i < s.files.length then { s with producers := s.producers.set t (.read_fgets i) }
    else { s with producers := s.producers.set t .done_incr }
  | .read_fgets i =>
    match fgets CHAR_MAX (s.files.getD i []) with
    | some (line, rest) =>
      { s with files := s.files.set i rest
               producers := s.producers.set t (.read_enqueue i (c_str line)) }
    | none => { s with producers := s.producers.set t (.for_loop (i + prod_count)) }
  | .read_enqueue i line =>
    { s with queue := enqueue line s.queue
             enqueued := s.enqueued ++ [line]
             producers := s.producers.set t (.read_fgets i) }
  | .done_incr =>
    { s with prod_done := s.prod_done + 1
             producers := s.producers.set t .finished }
  | .finished => s

/-- One step of consumer `c`, which is at program point `pc`. -/
def consumer_step (prod_count : Nat) (kw : List CStr) (s : State) (c : Nat) : ConsPc → State
  | .wait_loop =>
    if s.prod_done < prod_count then { s with consumers := s.consumers.set c (.deq_test false) }
    else { s with consumers := s.consumers.set c .drain_loop }
  | .drain_loop =>
    if s.queue.queue_head = none then { s with consumers := s.consumers.set c .finished }
    else { s with consumers := s.consumers.set c (.deq_test true) }
  | .deq_test drain =>
    if s.queue.queue_head = none then
      { s with consumers := s.consumers.set c (ConsPc.loop_head drain) }
    else { s with consumers := s.consumers.set c (.deq_critical drain) }
  | .deq_critical drain =>
    match (dequeue_critical s.queue).1 with
    | some tmp =>
      { s with queue := (dequeue_critical s.queue).2
               dequeued := s.dequeued ++ [data_of s.queue.heap tmp]
               consumers := s.consumers.set c
                 (.tokenizing drain (tokenize_incrs (data_of s.queue.heap tmp) kw)) }
    | none =>
      { s with queue := (dequeue_critical s.queue).2
               consumers := s.consumers.set c (ConsPc.loop_head drain) }
  | .tokenizing drain [] => { s with consumers := s.consumers.set c (ConsPc.loop_head drain) }
  | .tokenizing drain (i :: incrs) =>
    { s with table := incr s.table i
             consumers := s.consumers.set c (.tokenizing drain incrs) }
  | .finished => s

/-- One step of thread `id` of the parallel region: threads `0 .. prod_count-1`
are producers, the others consumers (source line 127).  A thread number that
names no thread does nothing. -/
def step (prod_count : Nat) (kw : List CStr) (s : State) (id : Nat) : State :=
  if id < prod_count then
    match s.producers[id]? with
    | some pc => producer_step prod_count s id pc
    | none => s
  else
    match s.consumers[id - prod_count]? with
    | some pc => consumer_step prod_count kw s (id - prod_count) pc
    | none => s

/-- The state at the start of the parallel region of `prod_cons`, called with
a zeroed table: producer `id` is about to start its loop with `i = id`. -/
def initial (prod_count cons_count : Nat) (files : List (List Char)) : State :=
  { queue := Queue.empty
    prod_done := 0
    table := Table.zero
    files := files
    producers := (List.range prod_count).map ProdPc.for_loop
    consumers := List.replicate cons_count ConsPc.wait_loop
    enqueued := []
    dequeued := [] }

/-- The state reached by `prod_cons` when its threads take their steps in the
order `sched` (a list of thread numbers). -/
def run (prod_count cons_count : Nat) (files : List (List Char)) (kw : List CStr)
    (sched : List Nat) : State :=
  sched.foldl (step prod_count kw) (initial prod_count cons_count files)

/-- Every thread has left the parallel region. -/
def State.all_finished (s : State) : Prop :=
  (∀ pc ∈ s.producers, pc = ProdPc.finished) ∧ (∀ pc ∈ s.consumers, pc = ConsPc.finished)

instance (s : State) : Decidable s.all_finished := by
  unfold State.all_finished
  infer_instance

/-- The counts that `main` prints after `prod_cons`: `table[i]` for every
keyword index `i`. -/
def State.counts (s : State) (kw : List CStr) : List Int :=
  (List.range kw.length).map s.table

/-- The number of increments `table[i]++` that the consumers execute for
keyword `i` over a whole run: the lines are the ones `read_file` enqueues
(cut by `fgets`, each with its trailing newline), the tokens are the pieces
that `strtok_r` cuts at the space character. -/
def line_token_count (kw : List CStr) (files : List (List Char)) (i : Nat) : Nat :=
  ((all_lines files).map (fun line => keyword_hits kw i (space_tokens line))).sum

/-- The documented output of the program (header of `tokenizer.cpp`: "the
frequency of each keyword"): for keyword `i`, the number of maximal runs of
non-whitespace characters of the sources that are equal to it. -/
def keyword_frequency (kw : List CStr) (files : List (List Char)) (i : Nat) : Nat :=
  (files.map (fun fp => keyword_hits kw i (whitespace_tokens fp))).sum

/-! ## Invariants of the parallel region -/

/-- The line a producer has read and not yet enqueued. -/
def ProdPc.in_hand : ProdPc → List CStr
  | .read_enqueue _ line => [line]
  | _ => []

/-- The loop index `i` of a producer that has not left its `for` loop. -/
def ProdPc.index : ProdPc → Option Nat
  | .for_loop i => some i
  | .read_fgets i => some i
  | .read_enqueue i _ => some i
  | _ => none

/-- One for a producer that has left the parallel region, zero otherwise. -/
def ProdPc.done_flag : ProdPc → Nat
  | .finished => 1
  | _ => 0

/-- The increments a consumer still has to execute for the line it holds. -/
def ConsPc.pending : ConsPc → List Nat
  | .tokenizing _ incrs => incrs
  | _ => []

/-- The consumer has left its first loop (source line 140). -/
def ConsPc.in_drain : ConsPc → Bool
  | .drain_loop => true
  | .deq_test drain => drain
  | .deq_critical drain => drain
  | .tokenizing drain _ => drain
  | .finished => true
  | .wait_loop => false

/-- What holds in every state of the parallel region of `prod_cons`, started
on the streams `files0`. -/
structure Inv (prod_count : Nat) (kw : List CStr) (files0 : List (List Char)) (s : State) :
    Prop where
  /-- The queue is a well-formed linked list. -/
  queue : ∃ addrs, QueueInv s.queue addrs
  /-- There are `prod_count` producers. -/
  nprod : s.producers.length = prod_count
  /-- `prod_done` counts the producers that have finished. -/
  done_count : s.prod_done = (s.producers.map ProdPc.done_flag).sum
  /-- A consumer is past its first loop only when all producers are done. -/
  drain : ∀ c ∈ s.consumers, c.in_drain = true → prod_count ≤ s.prod_done
  /-- Once a consumer has finished, the queue is empty. -/
  empty_when_finished : ConsPc.finished ∈ s.consumers → s.queue.queue_head = none
  /-- The lines enqueued are the lines dequeued followed by the queued ones. -/
  fifo : s.enqueued = s.dequeued ++ s.queue.lines
  /-- Every increment of a dequeued line is in the table or still pending:
  counter `j` has been incremented `n` times from zero. -/
  counted : ∀ j, ∃ n : Nat, s.table j = int_succ^[n] 0 ∧
    n + (s.consumers.map (fun c => c.pending.count j)).sum
      = (s.dequeued.map (fun line => (tokenize_incrs line kw).count j)).sum
  /-- Every line of the sources is enqueued, in a producer's hand, or unread. -/
  lines_conserved : ∀ l, (all_lines files0).count l
    = s.enqueued.count l + (s.producers.map (fun pc => pc.in_hand.count l)).sum
      + (s.files.map (fun fp => (file_lines fp).count l)).sum
  /-- Producer `t` works on a source of its own. -/
  own_index : ∀ t pc i, s.producers[t]? = some pc → pc.index = some i → i % prod_count = t
  /-- The sources of producer `t` before its loop index are exhausted. -/
  own_files : ∀ t pc j, s.producers[t]? = some pc → j % prod_count = t →
    (∀ i, pc.index = some i → j < i) → s.files.getD j [] = []

/-- A fair schedule for `n` threads: `rounds` rounds in each of which the
threads `0 .. n-1` take one step, in this order. -/
def round_robin (n rounds : Nat) : List Nat := (List.replicate rounds (List.range n)).flatten

/-! ## Keyword loading in `main` -/

/-- The keyword list `kw` that `main` builds (source lines 188 to 199) from a
keyword file with the contents `kwfile`: the first line is read with
`fgets(buf, CHAR_MAX, fp)` and split with `strtok(buf, " ")`.  The result is
`none` when `fgets` returns `NULL` and `main` exits. -/
def main_keywords (kwfile : List Char) : Option (List CStr) :=
  match fgets CHAR_MAX kwfile with
  | none => none
  | some (buf, _) => some (tokens_loop ((c_str buf).length + 1) (strtok_r (c_str buf) [' ']))

/-- A list of 101 distinct keywords: "a", "aa", "aaa", ... -/
def keywords_101 : List CStr := (List.range 101).map (fun n => List.replicate (n + 1) 'a')

/-! ## Termination measures -/

/-- Steps that producer code at a program point can still take apart from
reading characters, for `file_count` sources. -/
def ProdPc.rank (file_count : Nat) : ProdPc → Nat
  | .for_loop i => if i < file_count then 3 * (file_count - i) + 2 else 2
  | .read_fgets i => if i < file_count then 3 * (file_count - i) + 1 else 3
  | .read_enqueue i _ => if i < file_count then 3 * (file_count - i) + 2 else 4
  | .done_incr => 1
  | .finished => 0

/-- A bound on the steps a producer at program point `pc` can still take:
every successful `fgets` consumes a character of a stream. -/
def State.producer_measure (s : State) (pc : ProdPc) : Nat :=
  4 * (s.files.map List.length).sum + pc.rank s.files.length

/-- Steps that consumer code at a program point can still take on its own
account; `empty` tells whether `queue_head` is `NULL`. -/
def ConsPc.rank (empty : Bool) : ConsPc → Nat
  | .finished => 0
  | .drain_loop => if empty then 1 else 7
  | .wait_loop => if empty then 2 else 8
  | .deq_test _ => if empty then 3 else 6
  | .deq_critical _ => if empty then 3 else 5
  | .tokenizing _ incrs => 9 + incrs.length

/-- A bound on the steps a consumer at program point `pc` can still take once
all producers are done: every queued line costs its increments and five more
steps. -/
def State.consumer_measure (kw : List CStr) (s : State) (pc : ConsPc) : Nat :=
  (s.queue.lines.map (fun line => (tokenize_incrs line kw).length + 5)).sum
    + pc.rank (decide (s.queue.queue_head = none))

/-- Thread `id` takes `n` steps in a row. -/
def steps (prod_count : Nat) (kw : List CStr) (s : State) (id n : Nat) : State :=
  (List.replicate n id).foldl (step prod_count kw) s

/-- Ten small sources, used to run Scenario E. -/
def ten_sources : List (List Char) :=
  ["foo bar\nfoo\n".toList, "bar foo\n".toList, "foo foo".toList, "baz\n".toList,
   "bar\n".toList, "foo".toList, [], "x foo y\n".toList, "bar bar\n".toList, "foo bar".toList]

/-! # Theorems -/

/-! ## The queue -/

theorem Linked.lt_length {heap : List list_node} :
    ∀ {addrs : List Nat} {p : Option Nat}, Linked heap p addrs → ∀ a ∈ addrs, a < heap.length
  | [], _, _, a, ha => by simp at ha
  | b :: rest, p, h, a, ha => by
    rcases List.mem_cons.mp ha with rfl | ha
    · exact h.2.1
    · exact Linked.lt_length h.2.2 a ha

theorem Linked.walk_eq {heap : List list_node} :
    ∀ {addrs : List Nat} {p : Option Nat} {fuel : Nat}, Linked heap p addrs →
      addrs.length ≤ fuel → walk heap fuel p = addrs
  | [], p, fuel, h, _ => by
    have hp : p = none := h
    subst hp
    cases fuel <;> rfl
  | a :: rest, p, 0, _, hl => by simp at hl
  | a :: rest, p, fuel + 1, h, hl => by
    obtain ⟨hp, _, hrest⟩ := h
    subst hp
    simp only [walk, List.cons.injEq, true_and]
    exact Linked.walk_eq hrest (by simpa using hl)

theorem nodup_length_le {n : Nat} {l : List Nat} (hn : l.Nodup) (hb : ∀ a ∈ l, a < n) :
    l.length ≤ n := by
  have hsub : l ⊆ List.range n := fun a ha => List.mem_range.mpr (hb a ha)
  have := (List.subperm_of_subset hn hsub).length_le
  simpa using this

theorem QueueInv.nodes_eq {q : Queue} {addrs : List Nat} (h : QueueInv q addrs) :
    q.nodes = addrs :=
  Linked.walk_eq h.linked (nodup_length_le h.nodup (Linked.lt_length h.linked))

theorem QueueInv.empty : QueueInv Queue.empty [] :=
  ⟨rfl, rfl, List.nodup_nil⟩

theorem next_of_append_modify_ne {heap : List list_node} {nd : list_node} {f : list_node → list_node}
    {t a : Nat} (hne : a ≠ t) (ha : a < heap.length) :
    next_of ((heap ++ [nd]).modify f t) a = next_of heap a := by
  unfold next_of
  rw [List.getElem?_modify_ne _ _ (Ne.symm hne), List.getElem?_append_left ha]

theorem data_of_append_modify {heap : List list_node} {nd : list_node} {t a : Nat} {v : Option Nat}
    (ha : a < heap.length) :
    data_of ((heap ++ [nd]).modify (fun n => { n with next := v }) t) a = data_of heap a := by
  unfold data_of
  rw [List.getElem?_modify, List.getElem?_append_left ha]
  have hsome : heap[a]? = some heap[a] := List.getElem?_eq_getElem ha
  rw [hsome]
  by_cases h : t = a <;> simp [h]

theorem data_of_append_left {heap : List list_node} {nd : list_node} {a : Nat}
    (ha : a < heap.length) : data_of (heap ++ [nd]) a = data_of heap a := by
  unfold data_of
  rw [List.getElem?_append_left ha]

theorem next_of_append_left {heap : List list_node} {nd : list_node} {a : Nat}
    (ha : a < heap.length) : next_of (heap ++ [nd]) a = next_of heap a := by
  unfold next_of
  rw [List.getElem?_append_left ha]

/-- Linking a fresh node behind the last node of a chain extends the chain by
that node. -/
theorem Linked.snoc {heap : List list_node} {line : CStr} {t : Nat} :
    ∀ {addrs : List Nat} {p : Option Nat}, Linked heap p addrs → addrs.Nodup →
      addrs.getLast? = some t →
      Linked ((heap ++ [({ data := line, next := none } : list_node)]).modify
        (fun n => { n with next := some heap.length }) t) p (addrs ++ [heap.length])
  | [], _, _, _, hl => by simp at hl
  | a :: rest, p, h, hn, hl => by
    obtain ⟨hp, ha, hrest⟩ := h
    refine ⟨hp, by simp; omega, ?_⟩
    cases rest with
    | nil =>
      have hat : a = t := by simpa using hl
      subst hat
      have hnext : next_of ((heap ++ [({ data := line, next := none } : list_node)]).modify
          (fun n => { n with next := some heap.length }) a) a = some heap.length := by
        unfold next_of
        rw [List.getElem?_modify_eq, List.getElem?_append_left ha,
          List.getElem?_eq_getElem ha]
        rfl
      rw [hnext]
      refine ⟨rfl, by simp, ?_⟩
      show _ = none
      unfold next_of
      rw [List.getElem?_modify_ne _ _ (Nat.ne_of_lt ha)]
      simp
    | cons b rest2 =>
      have hl2 : (b :: rest2).getLast? = some t := by
        simpa [List.getLast?_cons_cons] using hl
      have htmem : t ∈ b :: rest2 := List.mem_of_getLast?_eq_some hl2
      have hne : a ≠ t := fun e => (List.nodup_cons.mp hn).1 (e ▸ htmem)
      rw [next_of_append_modify_ne hne ha]
      exact Linked.snoc hrest (List.nodup_cons.mp hn).2 hl2

/-- `enqueue` keeps the queue well formed and appends the new node. -/
theorem queueInv_enqueue {q : Queue} {addrs : List Nat} (h : QueueInv q addrs) (line : CStr) :
    QueueInv (enqueue line q) (addrs ++ [q.heap.length]) := by
  have hlt := Linked.lt_length h.linked
  have hfresh : q.heap.length ∉ addrs := fun hm => Nat.lt_irrefl _ (hlt _ hm)
  have hnodup : (addrs ++ [q.heap.length]).Nodup := by
    rw [List.nodup_append]
    refine ⟨h.nodup, List.nodup_singleton _, ?_⟩
    intro a ha hb
    rw [List.mem_singleton] at hb
    exact hfresh (hb ▸ ha)
  cases addrs with
  | nil =>
    have hh : q.queue_head = none := h.linked
    have ht : q.queue_tail = none := h.tail
    refine ⟨?_, ?_, hnodup⟩
    · simp only [enqueue, ht, List.nil_append]
      refine ⟨rfl, by simp, ?_⟩
      show _ = none
      simp [next_of]
    · simp [enqueue, ht]
  | cons a rest =>
    obtain ⟨t, ht⟩ : ∃ t, (a :: rest).getLast? = some t :=
      ⟨(a :: rest).getLast (by simp), List.getLast?_eq_getLast _ _⟩
    have htail : q.queue_tail = some t := by rw [h.tail, ht]
    refine ⟨?_, ?_, hnodup⟩
    · simp only [enqueue, htail]
      exact Linked.snoc h.linked h.nodup ht
    · simp only [enqueue, htail]
      exact (List.getLast?_concat _).symm

/-- The lines of the queue after `enqueue` are the old lines followed by the
new one. -/
theorem queueInv_enqueue_lines {q : Queue} {addrs : List Nat} (h : QueueInv q addrs)
    (line : CStr) : (enqueue line q).lines = q.lines ++ [line] := by
  have hlt := Linked.lt_length h.linked
  have h2 := queueInv_enqueue h line
  unfold Queue.lines
  rw [h2.nodes_eq, h.nodes_eq, List.map_append]
  congr 1
  · apply List.map_congr_left
    intro a ha
    unfold enqueue
    cases q.queue_tail with
    | none => exact data_of_append_left (hlt a ha)
    | some t => exact data_of_append_modify (hlt a ha)
  · have hlen : data_of (enqueue line q).heap q.heap.length = line := by
      unfold enqueue data_of
      cases hq : q.queue_tail with
      | none => simp
      | some t =>
        have htl : t < q.heap.length := by
          have : t ∈ addrs := List.mem_of_getLast?_eq_some (by rw [← h.tail, hq])
          exact hlt t this
        simp only
        rw [List.getElem?_modify_ne _ _ (Nat.ne_of_lt htl)]
        simp
    simp [hlen]

/-- The node that ends a chain has a `NULL` next pointer. -/
theorem Linked.next_last {heap : List list_node} :
    ∀ {addrs : List Nat} {p : Option Nat} {t : Nat}, Linked heap p addrs →
      addrs.getLast? = some t → next_of heap t = none
  | [], _, _, _, hl => by simp at hl
  | [a], _, t, h, hl => by
    have hat : a = t := by simpa using hl
    subst hat
    exact h.2.2
  | a :: b :: rest, _, t, h, hl => by
    rw [List.getLast?_cons_cons] at hl
    exact Linked.next_last h.2.2 hl

/-- The critical section of `dequeue` on a non-empty well-formed queue removes
the head node and returns it; the heap is not touched. -/
theorem queueInv_dequeue_critical_cons {q : Queue} {a : Nat} {rest : List Nat}
    (h : QueueInv q (a :: rest)) :
    (dequeue_critical q).1 = some a ∧ QueueInv (dequeue_critical q).2 rest ∧
      (dequeue_critical q).2.heap = q.heap := by
  obtain ⟨hlinked, htail, hnodup⟩ := h
  obtain ⟨hp, ha, hrest⟩ := hlinked
  cases rest with
  | nil =>
    have ht : q.queue_tail = some a := by simpa using htail
    have hnext : next_of q.heap a = none := hrest
    refine ⟨by simp [dequeue_critical, hp], ⟨?_, ?_, List.nodup_nil⟩, by simp [dequeue_critical, hp]⟩
    · show (dequeue_critical q).2.queue_head = none
      simp [dequeue_critical, hp, hnext]
    · simp [dequeue_critical, hp, ht, hnext]
  | cons b rest2 =>
    obtain ⟨t, ht⟩ : ∃ t, (b :: rest2).getLast? = some t :=
      ⟨(b :: rest2).getLast (by simp), List.getLast?_eq_getLast _ _⟩
    have htail2 : q.queue_tail = some t := by
      rw [htail, List.getLast?_cons_cons, ht]
    have hne : a ≠ t := fun e =>
      (List.nodup_cons.mp hnodup).1 (e ▸ List.mem_of_getLast?_eq_some ht)
    refine ⟨by simp [dequeue_critical, hp], ⟨?_, ?_, (List.nodup_cons.mp hnodup).2⟩,
      by simp [dequeue_critical, hp]⟩
    · have : (dequeue_critical q).2.queue_head = next_of q.heap a := by
        simp [dequeue_critical, hp]
      have hh : (dequeue_critical q).2.heap = q.heap := by simp [dequeue_critical, hp]
      rw [hh, this]
      exact hrest
    · simp [dequeue_critical, hp, htail2, hne, ht]

/-- The critical section of `dequeue` on an empty well-formed queue returns
`NULL` and changes nothing. -/
theorem queueInv_dequeue_critical_nil {q : Queue} (h : QueueInv q []) :
    dequeue_critical q = (none, q) := by
  have hh : q.queue_head = none := h.linked
  have ht : q.queue_tail = none := h.tail
  cases q
  simp_all [dequeue_critical]

theorem queueInv_dequeue_cons {q : Queue} {a : Nat} {rest : List Nat}
    (h : QueueInv q (a :: rest)) :
    (dequeue q).1 = some a ∧ QueueInv (dequeue q).2 rest ∧ (dequeue q).2.heap = q.heap := by
  have hp : q.queue_head = some a := h.linked.1
  have : dequeue q = dequeue_critical q := by simp [dequeue, hp]
  rw [this]
  exact queueInv_dequeue_critical_cons h

theorem queueInv_dequeue_nil {q : Queue} (h : QueueInv q []) : dequeue q = (none, q) := by
  have hh : q.queue_head = none := h.linked
  simp [dequeue, hh]

theorem queueInv_lines {q : Queue} {addrs : List Nat} (h : QueueInv q addrs) :
    q.lines = addrs.map (data_of q.heap) := by
  unfold Queue.lines
  rw [h.nodes_eq]

/-- Every call keeps the queue well formed and acts on its lines as the
specification's FIFO does. -/
theorem queueInv_apply_op {q : Queue} {addrs : List Nat} (h : QueueInv q addrs) (op : QueueOp) :
    (∃ addrs2, QueueInv (apply_op q op).1 addrs2) ∧
      (apply_op q op).1.lines = (fifo_op q.lines op).1 ∧
      (apply_op q op).2 = (fifo_op q.lines op).2 := by
  cases op with
  | enq line =>
    exact ⟨⟨_, queueInv_enqueue h line⟩, queueInv_enqueue_lines h line, rfl⟩
  | deq =>
    cases addrs with
    | nil =>
      have hl : q.lines = [] := by rw [queueInv_lines h]; rfl
      have hd := queueInv_dequeue_nil h
      refine ⟨⟨[], ?_⟩, ?_, ?_⟩
      · simpa [apply_op, hd] using h
      · simp [apply_op, hd, hl, fifo_op]
      · simp [apply_op, hd, hl, fifo_op]
    | cons a rest =>
      obtain ⟨h1, h2, h3⟩ := queueInv_dequeue_cons h
      have hl : q.lines = data_of q.heap a :: rest.map (data_of q.heap) := by
        rw [queueInv_lines h]; rfl
      refine ⟨⟨rest, h2⟩, ?_, ?_⟩
      · simp only [apply_op, hl, fifo_op]
        rw [queueInv_lines h2, h3]
      · simp [apply_op, hl, fifo_op, h1]

/-- Simulation: a run of calls on the linked queue gives the outputs and the
final contents of the specification's FIFO. -/
theorem queueInv_run_ops :
    ∀ (ops : List QueueOp) {q : Queue} {addrs : List Nat}, QueueInv q addrs →
      (∃ addrs2, QueueInv (run_ops q ops).1 addrs2) ∧
        (run_ops q ops).1.lines = (fifo_run q.lines ops).1 ∧
        (run_ops q ops).2 = (fifo_run q.lines ops).2
  | [], q, addrs, h => ⟨⟨addrs, h⟩, rfl, rfl⟩
  | op :: ops, q, addrs, h => by
    obtain ⟨⟨addrs1, hinv⟩, hlines, houts⟩ := queueInv_apply_op h op
    obtain ⟨hinv2, hlines2, houts2⟩ := queueInv_run_ops ops hinv
    refine ⟨hinv2, ?_, ?_⟩
    · simp only [run_ops, fifo_run]
      rw [hlines2, hlines]
    · simp only [run_ops, fifo_run]
      rw [houts2, hlines, houts]

theorem fifo_run_conservation :
    ∀ (ops : List QueueOp) (xs : List CStr),
      xs ++ enqueued_lines ops = dequeued_lines (fifo_run xs ops).2 ++ (fifo_run xs ops).1
  | [], xs => by simp [enqueued_lines, dequeued_lines, fifo_run]
  | .enq line :: ops, xs => by
    have ih := fifo_run_conservation ops (xs ++ [line])
    simp only [enqueued_lines, fifo_run, fifo_op, List.nil_append]
    rw [← ih]
    simp
  | .deq :: ops, [] => by
    have ih := fifo_run_conservation ops []
    simp only [enqueued_lines, fifo_run, fifo_op, dequeued_lines] at ih ⊢
    simpa using ih
  | .deq :: ops, x :: xs => by
    have ih := fifo_run_conservation ops xs
    simp only [enqueued_lines, fifo_run, fifo_op, dequeued_lines] at ih ⊢
    simp [ih]

theorem fifo_run_append (xs : List CStr) (a b : List QueueOp) :
    fifo_run xs (a ++ b) =
      ((fifo_run (fifo_run xs a).1 b).1, (fifo_run xs a).2 ++ (fifo_run (fifo_run xs a).1 b).2) := by
  induction a generalizing xs with
  | nil => simp [fifo_run]
  | cons op a ih => simp [fifo_run, ih]

theorem fifo_run_enqs (ls xs : List CStr) :
    fifo_run xs (ls.map QueueOp.enq) = (xs ++ ls, []) := by
  induction ls generalizing xs with
  | nil => simp [fifo_run]
  | cons l ls ih => simp [fifo_run, fifo_op, ih]

theorem fifo_run_drain (xs : List CStr) :
    fifo_run xs (List.replicate (xs.length + 1) QueueOp.deq) = ([], xs.map some ++ [none]) := by
  induction xs with
  | nil => simp [fifo_run, fifo_op]
  | cons x xs ih =>
    rw [List.length_cons, List.replicate_succ]
    show ((fifo_run xs (List.replicate (xs.length + 1) QueueOp.deq)).1,
      [some x] ++ (fifo_run xs (List.replicate (xs.length + 1) QueueOp.deq)).2) = _
    rw [ih]
    simp

theorem queueInv_queue_after (ops : List QueueOp) : ∃ addrs, QueueInv (queue_after ops) addrs :=
  (queueInv_run_ops ops QueueInv.empty).1

/-- **C3.** The shared queue is FIFO and delivers each line exactly once.  For
every sequence of `enqueue` and `dequeue` calls executed one at a time on the
empty queue: the values returned by the dequeues and the lines left in the
queue are those of the specification's FIFO; the lines enqueued are, in order,
the lines dequeued followed by the lines still queued (so nothing is lost,
nothing is returned twice, and there are never more successful dequeues than
enqueues); the next `dequeue` returns the oldest line still queued and removes
exactly it; a `dequeue` on the empty queue returns `NULL` and leaves the queue
unchanged; and after enqueuing `l1..ln`, `n` dequeues return `l1..ln` in that
order and one more returns `NULL`. -/
theorem queue_fifo_exactly_once (ops : List QueueOp) :
    outputs_of ops = (fifo_run [] ops).2 ∧
    (queue_after ops).lines = (fifo_run [] ops).1 ∧
    enqueued_lines ops = dequeued_lines (outputs_of ops) ++ (queue_after ops).lines ∧
    (dequeued_lines (outputs_of ops)).length ≤ (enqueued_lines ops).length ∧
    (dequeue (queue_after ops)).1.map (data_of (queue_after ops).heap)
      = (queue_after ops).lines.head? ∧
    (dequeue (queue_after ops)).2.lines = (queue_after ops).lines.tail ∧
    ((queue_after ops).lines = [] → dequeue (queue_after ops) = (none, queue_after ops)) ∧
    (∀ ls : List CStr,
      outputs_of (ls.map QueueOp.enq ++ List.replicate (ls.length + 1) QueueOp.deq)
        = ls.map some ++ [none]) := by
  obtain ⟨⟨addrs, hinv⟩, hlines, houts⟩ := queueInv_run_ops ops QueueInv.empty
  have hl0 : Queue.empty.lines = [] := rfl
  rw [hl0] at hlines houts
  have hcons := fifo_run_conservation ops []
  have hcons2 : enqueued_lines ops
      = dequeued_lines (outputs_of ops) ++ (queue_after ops).lines := by
    unfold outputs_of queue_after
    rw [houts, hlines]
    simpa using hcons
  refine ⟨houts, hlines, hcons2, ?_, ?_, ?_, ?_, ?_⟩
  · rw [hcons2]; simp
  · change QueueInv (queue_after ops) addrs at hinv
    cases addrs with
    | nil =>
      rw [queueInv_dequeue_nil hinv, queueInv_lines hinv]; rfl
    | cons a rest =>
      rw [(queueInv_dequeue_cons hinv).1, queueInv_lines hinv]; rfl
  · change QueueInv (queue_after ops) addrs at hinv
    cases addrs with
    | nil =>
      rw [queueInv_dequeue_nil hinv, queueInv_lines hinv]; rfl
    | cons a rest =>
      obtain ⟨_, h2, h3⟩ := queueInv_dequeue_cons hinv
      rw [queueInv_lines h2, queueInv_lines hinv, h3]; rfl
  · intro hempty
    change QueueInv (queue_after ops) addrs at hinv
    cases addrs with
    | nil => exact queueInv_dequeue_nil hinv
    | cons a rest =>
      rw [queueInv_lines hinv] at hempty
      simp at hempty
  · intro ls
    obtain ⟨_, _, houts2⟩ := queueInv_run_ops
      (ls.map QueueOp.enq ++ List.replicate (ls.length + 1) QueueOp.deq) QueueInv.empty
    unfold outputs_of
    rw [houts2, hl0, fifo_run_append, fifo_run_enqs, List.nil_append, fifo_run_drain]
    simp

/-- **C9.** The queue's head and tail stay consistent.  After every sequence
of `enqueue` and `dequeue` calls made on the empty queue: `queue_head` is
`NULL` exactly when `queue_tail` is; following `next` from `queue_head` visits
the nodes of the queue, each once, and ends at `NULL`; `queue_tail` is the last
of these nodes and its `next` is `NULL`; and when a single node is left,
`dequeue` returns it and sets both `queue_head` and `queue_tail` to `NULL`, so
that the node of a following `enqueue` becomes both head and tail. -/
theorem queue_head_tail_consistent (ops : List QueueOp) :
    ((queue_after ops).queue_head = none ↔ (queue_after ops).queue_tail = none) ∧
    Linked (queue_after ops).heap (queue_after ops).queue_head (queue_after ops).nodes ∧
    (queue_after ops).nodes.Nodup ∧
    (queue_after ops).queue_tail = (queue_after ops).nodes.getLast? ∧
    (∀ t, (queue_after ops).queue_tail = some t → next_of (queue_after ops).heap t = none) ∧
    (∀ a, (queue_after ops).nodes = [a] →
      (dequeue (queue_after ops)).1 = some a ∧
      (dequeue (queue_after ops)).2.queue_head = none ∧
      (dequeue (queue_after ops)).2.queue_tail = none ∧
      ∀ line : CStr,
        (enqueue line (dequeue (queue_after ops)).2).queue_head
            = some (queue_after ops).heap.length ∧
        (enqueue line (dequeue (queue_after ops)).2).queue_tail
            = some (queue_after ops).heap.length) := by
  obtain ⟨addrs, hinv⟩ := queueInv_queue_after ops
  have hnodes := hinv.nodes_eq
  rw [hnodes]
  refine ⟨?_, hinv.linked, hinv.nodup, hinv.tail, ?_, ?_⟩
  · rw [hinv.tail]
    cases addrs with
    | nil => exact ⟨fun _ => rfl, fun _ => hinv.linked⟩
    | cons a rest =>
      have hh : (queue_after ops).queue_head = some a := hinv.linked.1
      rw [hh]
      simp
  · intro t ht
    exact Linked.next_last hinv.linked (by rw [← hinv.tail, ht])
  · intro a ha
    subst ha
    obtain ⟨h1, h2, h3⟩ := queueInv_dequeue_cons hinv
    have hh : (dequeue (queue_after ops)).2.queue_head = none := h2.linked
    have ht : (dequeue (queue_after ops)).2.queue_tail = none := h2.tail
    refine ⟨h1, hh, ht, fun line => ?_⟩
    simp [enqueue, ht, h3]

/-- Instance of C3: two lines are enqueued and three dequeues follow; they
return the first line, the second line and `NULL`, and the queue is left
empty. -/
theorem queue_fifo_exactly_once_witness :
    outputs_of [QueueOp.enq "a b".toList, QueueOp.enq "c".toList, QueueOp.deq, QueueOp.deq,
      QueueOp.deq] = [some "a b".toList, some "c".toList, none] ∧
    (queue_after [QueueOp.enq "a b".toList, QueueOp.enq "c".toList, QueueOp.deq, QueueOp.deq,
      QueueOp.deq]).lines = [] ∧
    dequeue (queue_after [QueueOp.enq "a b".toList, QueueOp.deq])
      = (none, queue_after [QueueOp.enq "a b".toList, QueueOp.deq]) :=
  ⟨(queue_fifo_exactly_once [QueueOp.enq "a b".toList, QueueOp.enq "c".toList, QueueOp.deq,
      QueueOp.deq, QueueOp.deq]).1.trans (by decide),
    (queue_fifo_exactly_once [QueueOp.enq "a b".toList, QueueOp.enq "c".toList, QueueOp.deq,
      QueueOp.deq, QueueOp.deq]).2.1.trans (by decide),
    (queue_fifo_exactly_once [QueueOp.enq "a b".toList, QueueOp.deq]).2.2.2.2.2.2.1
      (by decide)⟩

/-- Instance of C9: after two enqueues and one dequeue a single node (address
1) is left; dequeuing it sets `queue_head` and `queue_tail` to `NULL`, and the
node of a following `enqueue` (address 2) is head and tail. -/
theorem queue_head_tail_consistent_witness :
    (queue_after [QueueOp.enq "a".toList, QueueOp.enq "b".toList, QueueOp.deq]).nodes = [1] ∧
    (dequeue (queue_after
      [QueueOp.enq "a".toList, QueueOp.enq "b".toList, QueueOp.deq])).2.queue_head = none ∧
    (dequeue (queue_after
      [QueueOp.enq "a".toList, QueueOp.enq "b".toList, QueueOp.deq])).2.queue_tail = none ∧
    (enqueue "c".toList (dequeue (queue_after
      [QueueOp.enq "a".toList, QueueOp.enq "b".toList, QueueOp.deq])).2).queue_head = some 2 ∧
    (enqueue "c".toList (dequeue (queue_after
      [QueueOp.enq "a".toList, QueueOp.enq "b".toList, QueueOp.deq])).2).queue_tail = some 2 :=
  ⟨by decide,
    ((queue_head_tail_consistent
      [QueueOp.enq "a".toList, QueueOp.enq "b".toList, QueueOp.deq]).2.2.2.2.2 1
        (by decide)).2.1,
    ((queue_head_tail_consistent
      [QueueOp.enq "a".toList, QueueOp.enq "b".toList, QueueOp.deq]).2.2.2.2.2 1
        (by decide)).2.2.1,
    (((queue_head_tail_consistent
      [QueueOp.enq "a".toList, QueueOp.enq "b".toList, QueueOp.deq]).2.2.2.2.2 1
        (by decide)).2.2.2 "c".toList).1.trans (by decide),
    (((queue_head_tail_consistent
      [QueueOp.enq "a".toList, QueueOp.enq "b".toList, QueueOp.deq]).2.2.2.2.2 1
        (by decide)).2.2.2 "c".toList).2.trans (by decide)⟩

/-! ## The tokenizer -/

theorem contains_space (c : Char) : ([' '] : List Char).contains c = (c == ' ') := by
  cases h : (c == ' ') <;> simp [List.contains, List.elem, h]

theorem dropWhile_length_le {α : Type} (p : α → Bool) (l : List α) :
    (l.dropWhile p).length ≤ l.length :=
  (List.dropWhile_sublist p).length_le

theorem space_tokens_eq (s : CStr) :
    space_tokens s = (s.splitOnP (fun c => c == ' ')).filter (fun piece => !piece.isEmpty) := rfl

theorem space_tokens_nil : space_tokens [] = [] := rfl

theorem space_tokens_dropWhile (s : CStr) :
    space_tokens (s.dropWhile (fun c => c == ' ')) = space_tokens s := by
  induction s with
  | nil => rfl
  | cons c s ih =>
    by_cases hc : (c == ' ') = true
    · rw [List.dropWhile_cons, if_pos hc, ih, space_tokens_eq (c :: s), List.splitOnP_cons]
      simp [hc, space_tokens_eq]
    · rw [List.dropWhile_cons, if_neg hc]

theorem space_tokens_token (c : Char) (rest : CStr) (hc : ¬ (c == ' ') = true) :
    space_tokens (c :: rest) =
      (c :: rest).takeWhile (fun x => !(x == ' ')) ::
        space_tokens ((c :: rest).dropWhile (fun x => !(x == ' '))).tail := by
  have hsplit := List.takeWhile_append_dropWhile (fun x => !(x == ' ')) (c :: rest)
  have htok : ∀ x ∈ (c :: rest).takeWhile (fun x => !(x == ' ')), ¬ (x == ' ') = true := by
    intro x hx
    have := List.mem_takeWhile_imp hx
    simpa using this
  have hne : (c :: rest).takeWhile (fun x => !(x == ' ')) ≠ [] := by
    rw [List.takeWhile_cons, if_pos (by simpa using hc)]
    simp
  cases hd : (c :: rest).dropWhile (fun x => !(x == ' ')) with
  | nil =>
    rw [hd, List.append_nil] at hsplit
    rw [hsplit] at htok hne ⊢
    rw [space_tokens_eq, List.splitOnP_eq_single _ _ htok]
    simp [space_tokens_nil]
  | cons d r =>
    have hdsp : (d == ' ') = true := by
      have := List.head_dropWhile_not (fun x => !(x == ' ')) (c :: rest) (by rw [hd]; simp)
      simpa [hd] using this
    rw [hd] at hsplit
    conv_lhs => rw [← hsplit]
    rw [space_tokens_eq, List.splitOnP_first _ _ htok d hdsp]
    rw [List.filter_cons_of_pos (by simpa using hne)]
    rfl

/-- The `while` loop of `tokenize` takes exactly the non-empty pieces between
spaces, whenever the fuel exceeds the length of the string. -/
theorem tokens_loop_eq :
    ∀ (fuel : Nat) (s : CStr), s.length < fuel →
      tokens_loop fuel (strtok_r s [' ']) = space_tokens s
  | 0, _, h => by omega
  | fuel + 1, s, h => by
    unfold strtok_r
    simp only [contains_space]
    cases hd : s.dropWhile (fun c => c == ' ') with
    | nil =>
      rw [← space_tokens_dropWhile, hd]
      rfl
    | cons c rest =>
      have hc : ¬ (c == ' ') = true := by
        have := List.head_dropWhile_not (fun c => c == ' ') s (by rw [hd]; simp)
        simpa [hd] using this
      have hlen : (c :: rest).length ≤ s.length := by
        rw [← hd]; exact dropWhile_length_le _ _
      have hlen2 : ((c :: rest).dropWhile (fun x => !(x == ' '))).tail.length < fuel := by
        have h1 := dropWhile_length_le (fun x => !(x == ' ')) (c :: rest)
        have h2 : ((c :: rest).dropWhile (fun x => !(x == ' '))).tail.length
            ≤ ((c :: rest).dropWhile (fun x => !(x == ' '))).length - 1 := by simp
        have h3 : ((c :: rest).dropWhile (fun x => !(x == ' '))).length ≤ rest.length := by
          rw [List.dropWhile_cons, if_pos (by simpa using hc)]
          exact dropWhile_length_le _ _
        simp only [List.length_cons] at hlen
        omega
      show _ :: tokens_loop fuel (strtok_r _ [' ']) = _
      rw [tokens_loop_eq fuel _ hlen2, ← space_tokens_dropWhile s, hd, space_tokens_token c rest hc]

/-- The tokens that `tokenize` compares with the keywords are the non-empty
pieces of the line between space characters. -/
theorem tokenize_tokens_eq (line : CStr) : tokenize_tokens line = space_tokens line :=
  tokens_loop_eq (line.length + 1) line (Nat.lt_succ_self _)

theorem tokenize_loop_eq (kw : List CStr) :
    ∀ (fuel : Nat) (st : Option (CStr × CStr)) (table : Table),
      tokenize_loop kw fuel st table
        = (tokens_loop fuel st).foldl (fun t token => match_loop token kw 0 t) table
  | 0, _, _ => rfl
  | _ + 1, none, _ => rfl
  | fuel + 1, some (token, saveptr), table => by
    simp only [tokenize_loop, tokens_loop, List.foldl_cons]
    exact tokenize_loop_eq kw fuel _ _

/-- `tokenize` runs the keyword loop once for every token of the line, in
order. -/
theorem tokenize_eq_foldl (line : CStr) (kw : List CStr) (table : Table) :
    tokenize line kw table
      = (space_tokens line).foldl (fun t token => match_loop token kw 0 t) table := by
  unfold tokenize
  rw [tokenize_loop_eq, ← tokenize_tokens_eq]
  rfl

theorem count_le_one_of_nodup {l : List CStr} (h : l.Nodup) (a : CStr) : l.count a ≤ 1 := by
  induction l with
  | nil => simp
  | cons b l ih =>
    rw [List.count_cons]
    by_cases hb : b = a
    · subst hb
      have : l.count b = 0 := List.count_eq_zero.mpr (List.nodup_cons.mp h).1
      simp [this]
    · have := ih (List.nodup_cons.mp h).2
      simpa [hb] using this

/-- As long as `INT_MAX` is not passed, `n` executions of `x++` add `n`. -/
theorem int_succ_iterate_of_le : ∀ (n : Nat) (x : Int), x + (n : Int) ≤ INT_MAX →
    int_succ^[n] x = x + (n : Int)
  | 0, x, _ => by simp
  | n + 1, x, h => by
    have hmax : INT_MAX = 2147483647 := rfl
    rw [hmax] at h
    push_cast at h
    have hx : x ≠ INT_MAX := by
      intro e
      rw [hmax] at e
      omega
    have hs : int_succ x = x + 1 := by
      unfold int_succ
      rw [if_neg hx]
    rw [Function.iterate_succ_apply, hs,
      int_succ_iterate_of_le n (x + 1) (by rw [hmax]; omega)]
    push_cast
    omega

/-- An `int` counter that starts at zero and is incremented `n` times, `n`
not above `INT_MAX`, holds `n`. -/
theorem int_succ_iterate_zero (n : Nat) (h : (n : Int) ≤ INT_MAX) :
    int_succ^[n] 0 = (n : Int) := by
  rw [int_succ_iterate_of_le n 0 (by rw [Int.zero_add]; exact h), Int.zero_add]

theorem incr_apply (table : Table) (i j : Nat) :
    incr table i j = int_succ^[if j = i then 1 else 0] (table j) := by
  unfold incr
  split <;> rfl

/-- Counter `j` after a sequence of increments `table[i]++`: it has been
incremented once for every occurrence of `j` in the sequence. -/
theorem foldl_incr_apply (l : List Nat) (table : Table) (j : Nat) :
    l.foldl incr table j = int_succ^[l.count j] (table j) := by
  induction l generalizing table with
  | nil => rfl
  | cons a l ih =>
    rw [List.foldl_cons, ih, incr_apply, List.count_cons, ← Function.iterate_add_apply]
    by_cases h : j = a
    · subst h; simp
    · have h2 : ¬ a = j := fun e => h e.symm
      simp [h, h2]

theorem match_loop_eq_foldl (token : CStr) :
    ∀ (kws : List CStr) (i : Nat) (table : Table),
      match_loop token kws i table = (match_indices token kws i).foldl incr table
  | [], _, _ => rfl
  | k :: kws, i, table => by
    unfold match_loop match_indices
    by_cases h : token = k
    · simp only [h, if_true, List.foldl_cons]
      exact match_loop_eq_foldl k kws (i + 1) _
    · simp only [h, if_false]
      exact match_loop_eq_foldl token kws (i + 1) _

theorem match_indices_count (token : CStr) :
    ∀ (kws : List CStr) (i j : Nat),
      (match_indices token kws i).count j
        = if i ≤ j ∧ kws[j - i]? = some token then 1 else 0
  | [], i, j => by simp [match_indices]
  | k :: kws, i, j => by
    have ih := match_indices_count token kws (i + 1) j
    unfold match_indices
    rcases Nat.lt_trichotomy j i with hlt | heq | hgt
    · have h1 : ¬ i ≤ j := by omega
      have h2 : ¬ i + 1 ≤ j := by omega
      have h3 : ¬ i = j := by omega
      simp only [h1, h2, false_and, if_false] at ih ⊢
      split
      · rw [List.count_cons, ih]; simp [h3]
      · exact ih
    · subst heq
      have h2 : ¬ j + 1 ≤ j := by omega
      simp only [h2, false_and, if_false] at ih
      simp only [le_refl, true_and, Nat.sub_self, List.getElem?_cons_zero, Option.some.injEq]
      by_cases h : token = k
      · rw [if_pos h, List.count_cons, ih, if_pos h.symm]; simp
      · rw [if_neg h, ih, if_neg (fun e => h e.symm)]
    · have h1 : i ≤ j := by omega
      have h2 : i + 1 ≤ j := by omega
      have h3 : ¬ i = j := by omega
      have h4 : j - i = (j - (i + 1)) + 1 := by omega
      simp only [h1, h2, true_and] at ih ⊢
      rw [h4, List.getElem?_cons_succ]
      split
      · rw [List.count_cons, ih]; simp [h3]
      · exact ih

theorem match_indices_length (token : CStr) :
    ∀ (kws : List CStr) (i : Nat), (match_indices token kws i).length = kws.count token
  | [], _ => rfl
  | k :: kws, i => by
    have ih := match_indices_length token kws (i + 1)
    unfold match_indices
    rw [List.count_cons]
    by_cases h : token = k
    · rw [if_pos h, List.length_cons, ih]; simp [h]
    · have h2 : ¬ k = token := fun e => h e.symm
      rw [if_neg h, ih]; simp [h2]

theorem match_indices_lt (token : CStr) :
    ∀ (kws : List CStr) (i : Nat), ∀ j ∈ match_indices token kws i, j < i + kws.length
  | [], _, j, hj => by simp [match_indices] at hj
  | k :: kws, i, j, hj => by
    have ih := match_indices_lt token kws (i + 1) j
    unfold match_indices at hj
    simp only [List.length_cons]
    split at hj
    · rcases List.mem_cons.mp hj with rfl | hj
      · omega
      · have := ih hj; omega
    · have := ih hj; omega

/-- `tokenize` executes the increments `tokenize_incrs`, in that order. -/
theorem tokenize_eq_incrs (line : CStr) (kw : List CStr) (table : Table) :
    tokenize line kw table = (tokenize_incrs line kw).foldl incr table := by
  rw [tokenize_eq_foldl, tokenize_incrs, tokenize_tokens_eq]
  generalize space_tokens line = toks
  induction toks generalizing table with
  | nil => rfl
  | cons tok toks ih =>
    rw [List.foldl_cons, List.flatMap_cons, List.foldl_append, ih, match_loop_eq_foldl]

theorem tokenize_incrs_count (line : CStr) (kw : List CStr) (j : Nat) :
    (tokenize_incrs line kw).count j = keyword_hits kw j (space_tokens line) := by
  rw [tokenize_incrs, tokenize_tokens_eq]
  unfold keyword_hits
  generalize space_tokens line = toks
  induction toks with
  | nil => cases kw[j]? <;> rfl
  | cons tok toks ih =>
    rw [List.flatMap_cons, List.count_append, ih, match_indices_count]
    simp only [Nat.zero_le, true_and, Nat.sub_zero]
    cases hk : kw[j]? with
    | none => simp
    | some k =>
      simp only [Option.some.injEq, List.count_cons, beq_iff_eq]
      by_cases h : k = tok
      · subst h; simp; omega
      · have h2 : ¬ tok = k := fun e => h e.symm
        simp [h, h2]

/-- Counter `j` after `tokenize` is its old value incremented once for every
token of the line equal to keyword `j`. -/
theorem tokenize_apply (line : CStr) (kw : List CStr) (table : Table) (j : Nat) :
    tokenize line kw table j = int_succ^[keyword_hits kw j (space_tokens line)] (table j) := by
  rw [tokenize_eq_incrs, foldl_incr_apply, tokenize_incrs_count]

/-- Counter `j` after `tokenize`, when it does not pass `INT_MAX`: its old
value plus the number of tokens of the line equal to keyword `j`. -/
theorem tokenize_apply_of_le (line : CStr) (kw : List CStr) (table : Table) (j : Nat)
    (h : table j + (keyword_hits kw j (space_tokens line) : Nat) ≤ INT_MAX) :
    tokenize line kw table j = table j + (keyword_hits kw j (space_tokens line) : Nat) := by
  rw [tokenize_apply, int_succ_iterate_of_le _ _ h]

/-- On a zeroed table no counter overflows as long as the line has at most
`INT_MAX` tokens. -/
theorem zero_table_no_overflow (toks : List CStr) (k : CStr) (i : Nat)
    (h : toks.length ≤ 2147483647) : Table.zero i + (toks.count k : Nat) ≤ INT_MAX := by
  have h1 : toks.count k ≤ toks.length := List.count_le_length k toks
  have hmax : INT_MAX = 2147483647 := rfl
  have hz : Table.zero i = 0 := rfl
  rw [hmax, hz]
  omega

/-- The model of `table[i]++` at the largest `int`: a counter that holds
`INT_MAX` holds `INT_MIN` after one matching token. -/
theorem tokenize_wraps_at_int_max :
    tokenize "foo".toList ["foo".toList] (fun _ => INT_MAX) 0 = INT_MIN := by
  decide

theorem tokenize_incrs_lt (line : CStr) (kw : List CStr) :
    ∀ j ∈ tokenize_incrs line kw, j < kw.length := by
  intro j hj
  unfold tokenize_incrs at hj
  obtain ⟨tok, _, hj⟩ := List.mem_flatMap.mp hj
  simpa using match_indices_lt tok kw 0 j hj

theorem tokenize_incrs_length_le (line : CStr) (kw : List CStr) (hkw : kw.Nodup) :
    (tokenize_incrs line kw).length ≤ (space_tokens line).length := by
  rw [tokenize_incrs, tokenize_tokens_eq]
  generalize space_tokens line = toks
  induction toks with
  | nil => simp
  | cons tok toks ih =>
    rw [List.flatMap_cons, List.length_append, match_indices_length, List.length_cons]
    rw [Nat.add_comm]
    exact Nat.add_le_add ih (count_le_one_of_nodup hkw tok)

theorem sum_count_le_length (l : List Nat) (n : Nat) :
    ∑ i ∈ Finset.range n, l.count i ≤ l.length := by
  induction l with
  | nil => simp
  | cons a l ih =>
    have h1 : ∀ i, (a :: l).count i = l.count i + (if a = i then 1 else 0) := by
      intro i
      rw [List.count_cons]
      simp
    simp only [h1, Finset.sum_add_distrib, List.length_cons]
    have h2 : ∑ i ∈ Finset.range n, (if a = i then 1 else 0) ≤ 1 := by
      rw [Finset.sum_ite_eq]
      split <;> simp
    omega

theorem keyword_hits_eq_zero {kw : List CStr} {toks : List CStr}
    (h : ∀ token ∈ toks, token ∉ kw) (j : Nat) : keyword_hits kw j toks = 0 := by
  unfold keyword_hits
  cases hk : kw[j]? with
  | none => rfl
  | some k =>
    have hmem : k ∈ kw := List.getElem?_mem hk
    exact List.count_eq_zero.mpr (fun hin => h k hin hmem)

theorem match_loop_apply (token : CStr) (kw : List CStr) (table : Table) (j : Nat) :
    match_loop token kw 0 table j
      = int_succ^[if kw[j]? = some token then 1 else 0] (table j) := by
  rw [match_loop_eq_foldl, foldl_incr_apply, match_indices_count]
  simp

/-- **C6.** Exact-match semantics.  For every line, keyword list and index `i`
below the number of keywords, `tokenize` increments the `int` counter `i` once
for every token of the line (the non-empty pieces obtained by splitting it at
the space character) that is equal, character for character, to keyword `i`;
so, whenever the old value plus that number of tokens does not exceed
`INT_MAX`, the counter is increased by exactly that number.  Counters at
indices not below the number of keywords are left unchanged; a token that
differs from keyword `i` in any way leaves counter `i` as it was, so token
"foobar" or "Foo" does not increment keyword "foo". -/
theorem tokenize_exact_match (line : CStr) (kw : List CStr) (table : Table) :
    (∀ (i : Nat) (h : i < kw.length),
      table i + ((space_tokens line).count kw[i] : Nat) ≤ INT_MAX →
      tokenize line kw table i = table i + ((space_tokens line).count kw[i] : Nat)) ∧
    (∀ (i : Nat) (h : i < kw.length),
      tokenize line kw table i = int_succ^[(space_tokens line).count kw[i]] (table i)) ∧
    (∀ i : Nat, kw.length ≤ i → tokenize line kw table i = table i) ∧
    (∀ (token : CStr) (i : Nat) (h : i < kw.length), token ≠ kw[i] →
      match_loop token kw 0 table i = table i) ∧
    tokenize "foobar".toList ["foo".toList] table 0 = table 0 ∧
    tokenize "Foo".toList ["foo".toList] table 0 = table 0 := by
  have hhits : ∀ (i : Nat) (h : i < kw.length),
      keyword_hits kw i (space_tokens line) = (space_tokens line).count kw[i] := by
    intro i h
    rw [keyword_hits, List.getElem?_eq_getElem h]
  refine ⟨?_, ?_, ?_, ?_, ?_, ?_⟩
  · intro i h hov
    rw [← hhits i h] at hov ⊢
    exact tokenize_apply_of_le line kw table i hov
  · intro i h
    rw [tokenize_apply, hhits i h]
  · intro i h
    rw [tokenize_apply, keyword_hits, List.getElem?_eq_none h]
    rfl
  · intro token i h hne
    rw [match_loop_apply, List.getElem?_eq_getElem h]
    have hne2 : ¬ kw[i] = token := fun e => hne e.symm
    simp [hne2]
  · rw [tokenize_apply]
    have : keyword_hits ["foo".toList] 0 (space_tokens "foobar".toList) = 0 := by decide
    rw [this]; rfl
  · rw [tokenize_apply]
    have : keyword_hits ["foo".toList] 0 (space_tokens "Foo".toList) = 0 := by decide
    rw [this]; rfl

/-- Instance of C6: keywords "foo", "bar" and the line "foo bar foo foobar Foo"
on a zeroed table, where no counter overflows. -/
theorem tokenize_exact_match_witness :
    tokenize "foo bar foo foobar Foo".toList ["foo".toList, "bar".toList] Table.zero 0 = 2 ∧
    tokenize "foo bar foo foobar Foo".toList ["foo".toList, "bar".toList] Table.zero 1 = 1 ∧
    tokenize "foo bar foo foobar Foo".toList ["foo".toList, "bar".toList] Table.zero 2 = 0 := by
  have h := tokenize_exact_match "foo bar foo foobar Foo".toList ["foo".toList, "bar".toList]
    Table.zero
  refine ⟨?_, ?_, ?_⟩
  · rw [h.1 0 (by decide) (by decide)]; decide
  · rw [h.1 1 (by decide) (by decide)]; decide
  · rw [h.2.2.1 2 (by decide)]; rfl

/-- **C7.** Each token is counted at most once.  For every line, every list of
pairwise distinct keywords and every table on which the call overflows no
`int` counter (old value plus matching tokens of the line at most `INT_MAX`):
`tokenize` never decreases a counter; one token executes at most one
increment, so running the keyword loop for it leaves every counter below
`INT_MAX` unchanged or raises it by exactly one, and it changes at most one
counter; summed over the counters, the increase caused by one `tokenize` call
is at most the number of tokens of the line; and it is zero (the table is
unchanged) when no token equals a keyword. -/
theorem tokenize_counts_each_token_once (line : CStr) (kw : List CStr) (table : Table)
    (hkw : kw.Nodup)
    (hov : ∀ (i : Nat) (h : i < kw.length),
      table i + ((space_tokens line).count kw[i] : Nat) ≤ INT_MAX) :
    (∀ i : Nat, table i ≤ tokenize line kw table i) ∧
    (∀ token : CStr, (match_indices token kw 0).length ≤ 1) ∧
    (∀ (t : Table) (token : CStr) (i : Nat), t i < INT_MAX →
      match_loop token kw 0 t i = t i ∨ match_loop token kw 0 t i = t i + 1) ∧
    (∀ (t : Table) (token : CStr) (i j : Nat), match_loop token kw 0 t i ≠ t i →
      match_loop token kw 0 t j ≠ t j → i = j) ∧
    (∀ n : Nat, ∑ i ∈ Finset.range n, (tokenize line kw table i - table i)
      ≤ ((space_tokens line).length : Int)) ∧
    ((∀ token ∈ space_tokens line, token ∉ kw) → tokenize line kw table = table) := by
  have hval : ∀ i : Nat, tokenize line kw table i
      = table i + ((tokenize_incrs line kw).count i : Nat) := by
    intro i
    rw [tokenize_incrs_count]
    by_cases h : i < kw.length
    · apply tokenize_apply_of_le
      rw [keyword_hits, List.getElem?_eq_getElem h]
      exact hov i h
    · rw [tokenize_apply, keyword_hits, List.getElem?_eq_none (Nat.le_of_not_lt h)]
      simp
  refine ⟨?_, ?_, ?_, ?_, ?_, ?_⟩
  · intro i
    rw [hval]
    omega
  · intro token
    rw [match_indices_length]
    exact count_le_one_of_nodup hkw token
  · intro t token i hlt
    rw [match_loop_apply]
    split
    · right
      have hne : t i ≠ INT_MAX := ne_of_lt hlt
      show int_succ (t i) = t i + 1
      unfold int_succ
      rw [if_neg hne]
    · exact Or.inl rfl
  · intro t token i j hi hj
    rw [match_loop_apply] at hi hj
    have h1 : kw[i]? = some token := by
      by_contra h; simp [h] at hi
    have h2 : kw[j]? = some token := by
      by_contra h; simp [h] at hj
    obtain ⟨hil, hie⟩ := List.getElem?_eq_some_iff.mp h1
    obtain ⟨hjl, hje⟩ := List.getElem?_eq_some_iff.mp h2
    exact (List.Nodup.getElem_inj_iff hkw).mp (hie.trans hje.symm)
  · intro n
    have h1 : ∀ i, tokenize line kw table i - table i
        = (((tokenize_incrs line kw).count i : Nat) : Int) := by
      intro i
      rw [hval]
      omega
    simp only [h1]
    rw [← Nat.cast_sum]
    exact Int.ofNat_le.mpr
      (le_trans (sum_count_le_length _ _) (tokenize_incrs_length_le line kw hkw))
  · intro h
    funext j
    rw [tokenize_apply, keyword_hits_eq_zero h]
    rfl

/-- Instance of C7: the pairwise distinct keywords "foo", "bar" and the line
"foo bar foo baz" of four tokens, three of which are keywords, on a zeroed
table. -/
theorem tokenize_counts_each_token_once_witness :
    ["foo".toList, "bar".toList].Nodup ∧
    (∀ (i : Nat) (h : i < ["foo".toList, "bar".toList].length),
      Table.zero i + ((space_tokens "foo bar foo baz".toList).count
        ["foo".toList, "bar".toList][i] : Nat) ≤ INT_MAX) ∧
    ∑ i ∈ Finset.range 2,
      (tokenize "foo bar foo baz".toList ["foo".toList, "bar".toList] Table.zero i
        - Table.zero i) ≤ 4 :=
  ⟨by decide,
    fun i _ => zero_table_no_overflow _ _ i (by decide),
    (tokenize_counts_each_token_once "foo bar foo baz".toList ["foo".toList, "bar".toList]
      Table.zero (by decide)
      (fun i _ => zero_table_no_overflow _ _ i (by decide))).2.2.2.2.1 2⟩

/-- A line without a space is one token, whatever other characters it holds. -/
theorem space_tokens_no_space (line : CStr) (hsp : ∀ c ∈ line, c ≠ ' ') (hne : line ≠ []) :
    space_tokens line = [line] := by
  rw [space_tokens_eq, List.splitOnP_eq_single]
  · cases line with
    | nil => exact absurd rfl hne
    | cons c rest => rfl
  · intro x hx
    simpa using hsp x hx

/-- Every piece of a split holds elements of the list only, and no separator. -/
theorem splitOnP_pieces {α : Type} (p : α → Bool) :
    ∀ (l : List α), ∀ piece ∈ l.splitOnP p, ∀ x ∈ piece, x ∈ l ∧ ¬ p x = true
  | [], piece, hp, x, hx => by
    rw [List.splitOnP_nil, List.mem_singleton] at hp
    subst hp
    simp at hx
  | a :: l, piece, hp, x, hx => by
    have ih := splitOnP_pieces p l
    rw [List.splitOnP_cons] at hp
    by_cases ha : p a = true
    · rw [if_pos ha] at hp
      rcases List.mem_cons.mp hp with rfl | hp
      · simp at hx
      · exact ⟨List.mem_cons_of_mem _ (ih piece hp x hx).1, (ih piece hp x hx).2⟩
    · rw [if_neg ha] at hp
      cases hs : l.splitOnP p with
      | nil => exact absurd hs (List.splitOnP_ne_nil p l)
      | cons hd tl =>
        rw [hs] at hp ih
        rcases List.mem_cons.mp hp with rfl | hp
        · rcases List.mem_cons.mp hx with rfl | hx
          · exact ⟨List.mem_cons_self _ _, ha⟩
          · have := ih hd (List.mem_cons_self _ _) x hx
            exact ⟨List.mem_cons_of_mem _ this.1, this.2⟩
        · have := ih piece (List.mem_cons_of_mem _ hp) x hx
          exact ⟨List.mem_cons_of_mem _ this.1, this.2⟩

/-- Counterexample to C5 as stated: the tab is not a separator.  The line
"foo\tbar" has the two whitespace-delimited tokens "foo" and "bar", but
`tokenize` compares the single token "foo\tbar" with the keywords and adds
nothing to the counters of "foo" and "bar". -/
theorem tokenize_tab_is_no_separator :
    whitespace_tokens "foo\tbar".toList = ["foo".toList, "bar".toList] ∧
    tokenize_tokens "foo\tbar".toList = ["foo\tbar".toList] ∧
    tokenize "foo\tbar".toList ["foo".toList, "bar".toList] Table.zero 0 = 0 ∧
    tokenize "foo\tbar".toList ["foo".toList, "bar".toList] Table.zero 1 = 0 := by
  decide

/-- **C5 (amended).** `tokenize` splits a line at the space character only.
For every line without a newline character and every keyword list, the tokens
compared against the keywords are exactly the non-empty pieces of the line
between spaces (the maximal runs of non-space characters), each compared once
with every keyword, in order; no token is empty or holds a space or a newline;
a line without a space is a single token, so a tab or a carriage return does
not separate tokens. -/
theorem tokenize_splits_at_spaces (line : CStr) (kw : List CStr) (table : Table)
    (hnl : '\n' ∉ line) :
    tokenize_tokens line = space_tokens line ∧
    tokenize line kw table
      = (tokenize_tokens line).foldl (fun t token => match_loop token kw 0 t) table ∧
    (∀ token ∈ tokenize_tokens line, token ≠ [] ∧ ' ' ∉ token ∧ '\n' ∉ token) ∧
    ((∀ c ∈ line, c ≠ ' ') → line ≠ [] → tokenize_tokens line = [line]) := by
  refine ⟨tokenize_tokens_eq line, ?_, ?_, ?_⟩
  · rw [tokenize_tokens_eq, tokenize_eq_foldl]
  · intro token htok
    rw [tokenize_tokens_eq, space_tokens, List.mem_filter] at htok
    have hp := splitOnP_pieces (fun c => c == ' ') line token htok.1
    refine ⟨by simpa using htok.2, fun hsp => ?_, fun hin => hnl (hp _ hin).1⟩
    exact (hp _ hsp).2 (by simp)
  · intro hsp hne
    rw [tokenize_tokens_eq, space_tokens_no_space line hsp hne]

/-- Instance of the amended C5: for the keywords "foo", "bar" the line
"foo\tbar" is the single token "foo\tbar" and the line "bar foo" has the tokens
"bar" and "foo". -/
theorem tokenize_splits_at_spaces_witness :
    '\n' ∉ "foo\tbar".toList ∧
    tokenize_tokens "foo\tbar".toList = space_tokens "foo\tbar".toList ∧
    tokenize_tokens "foo\tbar".toList = ["foo\tbar".toList] ∧
    tokenize_tokens "bar foo".toList = ["bar".toList, "foo".toList] ∧
    tokenize "bar foo".toList ["foo".toList, "bar".toList] Table.zero 0 = 1 ∧
    tokenize "bar foo".toList ["foo".toList, "bar".toList] Table.zero 1 = 1 :=
  ⟨by decide,
    (tokenize_splits_at_spaces "foo\tbar".toList ["foo".toList, "bar".toList] Table.zero
      (by decide)).1,
    (tokenize_splits_at_spaces "foo\tbar".toList ["foo".toList, "bar".toList] Table.zero
      (by decide)).2.2.2 (by decide) (by decide),
    by decide, by decide, by decide⟩

/-! ## Reading a file -/

theorem fgets_read_append :
    ∀ (k : Nat) (fp : List Char), (fgets_read k fp).1 ++ (fgets_read k fp).2 = fp
  | 0, _ => rfl
  | _ + 1, [] => rfl
  | k + 1, c :: fp => by
    unfold fgets_read
    split
    · rfl
    · simp [fgets_read_append k fp]

theorem fgets_read_rest_length (k : Nat) (c : Char) (fp : List Char) :
    (fgets_read (k + 1) (c :: fp)).2.length ≤ fp.length := by
  unfold fgets_read
  split
  · exact Nat.le_refl _
  · have h := congrArg List.length (fgets_read_append k fp)
    simp only [List.length_append] at h
    simp only
    omega

theorem fgets_eq_none {n : Nat} {fp : List Char} : fgets n fp = none ↔ fp = [] := by
  cases fp <;> simp [fgets]

/-- A successful `fgets` of `read_file` splits the stream into the buffer and
the rest, and takes at least one character. -/
theorem fgets_some {fp line rest : List Char} (h : fgets CHAR_MAX fp = some (line, rest)) :
    line ++ rest = fp ∧ rest.length < fp.length := by
  cases fp with
  | nil => simp [fgets] at h
  | cons c fp =>
    simp only [fgets, Option.some.injEq] at h
    have h1 := fgets_read_append (CHAR_MAX - 1) (c :: fp)
    have h2 := fgets_read_rest_length 125 c fp
    have h3 : CHAR_MAX - 1 = 125 + 1 := rfl
    rw [h3] at h h1
    rw [h] at h1 h2
    exact ⟨h1, by simpa using Nat.lt_succ_of_le h2⟩

theorem file_chunks_loop_fuel :
    ∀ (fuel : Nat) (fp : List Char), fp.length < fuel →
      file_chunks_loop fuel fp = file_chunks_loop (fp.length + 1) fp
  | 0, _, h => by omega
  | fuel + 1, fp, h => by
    unfold file_chunks_loop
    cases hf : fgets CHAR_MAX fp with
    | none => rfl
    | some r =>
      obtain ⟨line, rest⟩ := r
      have hlt := (fgets_some hf).2
      simp only
      rw [file_chunks_loop_fuel fuel rest (by omega),
        file_chunks_loop_fuel fp.length rest hlt]

theorem file_chunks_some {fp line rest : List Char} (h : fgets CHAR_MAX fp = some (line, rest)) :
    file_chunks fp = line :: file_chunks rest := by
  unfold file_chunks
  rw [file_chunks_loop, h]
  simp only
  rw [file_chunks_loop_fuel fp.length rest (fgets_some h).2]

theorem file_chunks_nil : file_chunks [] = [] := rfl

theorem file_lines_some {fp line rest : List Char} (h : fgets CHAR_MAX fp = some (line, rest)) :
    file_lines fp = c_str line :: file_lines rest := by
  unfold file_lines
  rw [file_chunks_some h, List.map_cons]

theorem file_lines_nil : file_lines [] = [] := rfl

theorem file_chunks_flatten_aux :
    ∀ (n : Nat) (fp : List Char), fp.length < n → (file_chunks fp).flatten = fp
  | 0, _, h => by omega
  | n + 1, fp, h => by
    cases hf : fgets CHAR_MAX fp with
    | none =>
      rw [fgets_eq_none.mp hf]
      rfl
    | some r =>
      obtain ⟨line, rest⟩ := r
      obtain ⟨happ, hlt⟩ := fgets_some hf
      rw [file_chunks_some hf, List.flatten_cons,
        file_chunks_flatten_aux n rest (by omega), happ]

/-- The loop of `read_file` reads the whole stream: the buffers it fills,
joined, are the stream. -/
theorem file_chunks_flatten (fp : List Char) : (file_chunks fp).flatten = fp :=
  file_chunks_flatten_aux (fp.length + 1) fp (Nat.lt_succ_self _)

theorem read_file_loop_lines :
    ∀ (fuel : Nat) (fp : List Char) (q : Queue) (addrs : List Nat), fp.length < fuel →
      QueueInv q addrs →
      (∃ addrs2, QueueInv (read_file_loop fuel fp q) addrs2) ∧
        (read_file_loop fuel fp q).lines = q.lines ++ file_lines fp
  | 0, _, _, _, h, _ => by omega
  | fuel + 1, fp, q, addrs, h, hinv => by
    unfold read_file_loop
    cases hf : fgets CHAR_MAX fp with
    | none =>
      rw [fgets_eq_none.mp hf, file_lines_nil, List.append_nil]
      exact ⟨⟨addrs, hinv⟩, rfl⟩
    | some r =>
      obtain ⟨line, rest⟩ := r
      have hlt := (fgets_some hf).2
      simp only
      obtain ⟨h1, h2⟩ := read_file_loop_lines fuel rest _ _ (by omega)
        (queueInv_enqueue hinv (c_str line))
      refine ⟨h1, ?_⟩
      rw [h2, queueInv_enqueue_lines hinv, file_lines_some hf, List.append_assoc]
      rfl

/-- `read_file` keeps the queue well formed and appends the lines of the
stream, in order. -/
theorem read_file_lines (fp : List Char) (q : Queue) (addrs : List Nat) (hinv : QueueInv q addrs) :
    (∃ addrs2, QueueInv (read_file fp q) addrs2) ∧
      (read_file fp q).lines = q.lines ++ file_lines fp :=
  read_file_loop_lines (fp.length + 1) fp q addrs (Nat.lt_succ_self _) hinv

/-! ## The producer loop -/

theorem producer_loop_indices (prod_count : Nat) (files : List (List Char)) (hp : 1 ≤ prod_count) :
    ∀ (fuel i : Nat) (q : Queue), files.length ≤ i + fuel →
      (∀ j, j ∈ (producer_loop prod_count files fuel i q).2 ↔
        (j < files.length ∧ ∃ k, j = i + k * prod_count)) ∧
      (producer_loop prod_count files fuel i q).2.Pairwise (· < ·)
  | 0, i, q, hf => by
    refine ⟨fun j => ?_, List.Pairwise.nil⟩
    simp only [producer_loop, List.not_mem_nil, false_iff, not_and, not_exists]
    intro hj k hk
    have : 0 ≤ k * prod_count := Nat.zero_le _
    omega
  | fuel + 1, i, q, hf => by
    unfold producer_loop
    by_cases hi : i < files.length
    · simp only [hi, if_true]
      obtain ⟨hmem, hsorted⟩ :=
        producer_loop_indices prod_count files hp fuel (i + prod_count)
          (read_file (files.getD i []) q) (by omega)
      refine ⟨fun j => ?_, ?_⟩
      · rw [List.mem_cons, hmem]
        constructor
        · rintro (rfl | ⟨hj, k, hk⟩)
          · exact ⟨hi, 0, by simp⟩
          · exact ⟨hj, k + 1, by rw [hk, Nat.succ_mul]; omega⟩
        · rintro ⟨hj, k, hk⟩
          cases k with
          | zero => exact Or.inl (by simpa using hk)
          | succ k => exact Or.inr ⟨hj, k, by rw [hk, Nat.succ_mul]; omega⟩
      · refine List.Pairwise.cons ?_ hsorted
        intro j hj
        obtain ⟨_, k, hk⟩ := (hmem j).mp hj
        have : 0 ≤ k * prod_count := Nat.zero_le _
        omega
    · simp only [hi, if_false]
      refine ⟨fun j => ?_, List.Pairwise.nil⟩
      simp only [List.not_mem_nil, false_iff, not_and, not_exists]
      intro hj k hk
      have : 0 ≤ k * prod_count := Nat.zero_le _
      omega

theorem producer_loop_lines (prod_count : Nat) (files : List (List Char)) :
    ∀ (fuel i : Nat) (q : Queue) (addrs : List Nat), QueueInv q addrs →
      (∃ addrs2, QueueInv (producer_loop prod_count files fuel i q).1 addrs2) ∧
      (producer_loop prod_count files fuel i q).1.lines
        = q.lines ++ (producer_loop prod_count files fuel i q).2.flatMap
            (fun j => file_lines (files.getD j []))
  | 0, i, q, addrs, hinv => ⟨⟨addrs, hinv⟩, by simp [producer_loop]⟩
  | fuel + 1, i, q, addrs, hinv => by
    unfold producer_loop
    by_cases hi : i < files.length
    · simp only [hi, if_true]
      obtain ⟨⟨addrs1, hinv1⟩, hlines1⟩ := read_file_lines (files.getD i []) q addrs hinv
      obtain ⟨hinv2, hlines2⟩ :=
        producer_loop_lines prod_count files fuel (i + prod_count)
          (read_file (files.getD i []) q) addrs1 hinv1
      refine ⟨hinv2, ?_⟩
      rw [hlines2, hlines1, List.flatMap_cons, List.append_assoc]
    · simp only [hi, if_false]
      exact ⟨⟨addrs, hinv⟩, by simp⟩

theorem exists_mul_iff_mod {prod_count id : Nat} (hid : id < prod_count) (j : Nat) :
    (∃ k, j = id + k * prod_count) ↔ j % prod_count = id := by
  constructor
  · rintro ⟨k, rfl⟩
    rw [Nat.add_mul_mod_self_right, Nat.mod_eq_of_lt hid]
  · intro h
    refine ⟨j / prod_count, ?_⟩
    have := Nat.mod_add_div j prod_count
    rw [h, Nat.mul_comm] at this
    exact this.symm

theorem count_eq_one_of_pairwise_lt {l : List Nat} (h : l.Pairwise (· < ·)) {a : Nat}
    (ha : a ∈ l) : l.count a = 1 := by
  have hnd : l.Nodup := h.imp (fun hlt => Nat.ne_of_lt hlt)
  exact List.count_eq_one_of_mem hnd ha

/-! ## The parallel region: invariants -/

theorem sum_map_set {α : Type} (f : α → Nat) :
    ∀ (l : List α) (t : Nat) (old x : α), l[t]? = some old →
      ((l.set t x).map f).sum + f old = (l.map f).sum + f x
  | [], t, old, x, h => by simp at h
  | a :: l, 0, old, x, h => by
    simp only [List.getElem?_cons_zero, Option.some.injEq] at h
    subst h
    simp only [List.set_cons_zero, List.map_cons, List.sum_cons]
    omega
  | a :: l, t + 1, old, x, h => by
    simp only [List.getElem?_cons_succ] at h
    have ih := sum_map_set f l t old x h
    simp only [List.set_cons_succ, List.map_cons, List.sum_cons]
    omega

theorem sum_map_eq_zero {α : Type} (f : α → Nat) (l : List α) (h : ∀ a ∈ l, f a = 0) :
    (l.map f).sum = 0 := by
  induction l with
  | nil => rfl
  | cons a l ih =>
    rw [List.map_cons, List.sum_cons, h a (List.mem_cons_self _ _),
      ih (fun b hb => h b (List.mem_cons_of_mem _ hb))]

theorem done_flag_sum_le (l : List ProdPc) : (l.map ProdPc.done_flag).sum ≤ l.length := by
  induction l with
  | nil => simp
  | cons b l ih =>
    simp only [List.map_cons, List.sum_cons, List.length_cons]
    cases b <;> simp only [ProdPc.done_flag] <;> omega

theorem all_finished_of_sum {l : List ProdPc} (h : l.length ≤ (l.map ProdPc.done_flag).sum) :
    ∀ pc ∈ l, pc = ProdPc.finished := by
  induction l with
  | nil => simp
  | cons a l ih =>
    have hle := done_flag_sum_le l
    simp only [List.map_cons, List.sum_cons, List.length_cons] at h
    intro pc hpc
    cases a with
    | finished =>
      simp only [ProdPc.done_flag] at h
      rcases List.mem_cons.mp hpc with rfl | hpc
      · rfl
      · exact ih (by omega) pc hpc
    | _ =>
      simp only [ProdPc.done_flag] at h
      omega

theorem getElem?_mem_of_some {α : Type} {l : List α} {t : Nat} {a : α} (h : l[t]? = some a) :
    a ∈ l := List.getElem?_mem h

theorem inv_initial (prod_count cons_count : Nat) (kw : List CStr) (files : List (List Char)) :
    Inv prod_count kw files (initial prod_count cons_count files) where
  queue := ⟨[], QueueInv.empty⟩
  nprod := by simp [initial]
  done_count := by
    simp only [initial, List.map_map]
    symm
    apply sum_map_eq_zero
    intro a _
    rfl
  drain := by
    intro c hc hd
    simp only [initial, List.mem_replicate] at hc
    rw [hc.2] at hd
    simp [ConsPc.in_drain] at hd
  empty_when_finished := by
    intro _
    rfl
  fifo := rfl
  counted := by
    intro j
    refine ⟨0, rfl, ?_⟩
    simp only [initial, List.map_nil, List.sum_nil, Nat.zero_add]
    apply sum_map_eq_zero
    intro c hc
    rw [(List.mem_replicate.mp hc).2]
    rfl
  lines_conserved := by
    intro l
    have h1 : (((List.range prod_count).map ProdPc.for_loop).map
        (fun pc => pc.in_hand.count l)).sum = 0 := by
      apply sum_map_eq_zero
      intro a ha
      obtain ⟨i, _, rfl⟩ := List.mem_map.mp ha
      rfl
    simp only [initial, List.count_nil, Nat.zero_add, h1]
    unfold all_lines
    rw [List.flatMap, List.count_flatten, List.map_map]
    rfl
  own_index := by
    intro t pc i hpc hi
    simp only [initial, List.getElem?_map] at hpc
    cases hr : (List.range prod_count)[t]? with
    | none => simp [hr] at hpc
    | some u =>
      have hu := List.getElem?_eq_some_iff.mp hr
      obtain ⟨hlt, hu⟩ := hu
      rw [List.getElem_range] at hu
      subst hu
      simp only [hr, Option.map_some', Option.some.injEq] at hpc
      subst hpc
      simp only [ProdPc.index, Option.some.injEq] at hi
      subst hi
      exact Nat.mod_eq_of_lt (by simpa using hlt)
  own_files := by
    intro t pc j hpc hj hlt
    simp only [initial, List.getElem?_map] at hpc
    cases hr : (List.range prod_count)[t]? with
    | none => simp [hr] at hpc
    | some u =>
      obtain ⟨hlt2, hu⟩ := List.getElem?_eq_some_iff.mp hr
      rw [List.getElem_range] at hu
      subst hu
      simp only [hr, Option.map_some', Option.some.injEq] at hpc
      subst hpc
      have := hlt t rfl
      have hmod := Nat.mod_le j prod_count
      omega

theorem getElem?_set_cases {α : Type} {l : List α} {t u : Nat} {x y : α}
    (h : (l.set t x)[u]? = some y) : (u = t ∧ y = x) ∨ (u ≠ t ∧ l[u]? = some y) := by
  rw [List.getElem?_set] at h
  by_cases htu : t = u
  · rw [if_pos htu] at h
    split at h
    · exact Or.inl ⟨htu.symm, (Option.some.inj h).symm⟩
    · simp at h
  · rw [if_neg htu] at h
    exact Or.inr ⟨fun e => htu e.symm, h⟩

theorem getD_set_ne {α : Type} (l : List α) {i j : Nat} (x d : α) (h : j ≠ i) :
    (l.set i x).getD j d = l.getD j d := by
  simp only [List.getD_eq_getElem?_getD]
  rw [List.getElem?_set_ne (fun e => h e.symm)]

/-- Changing the program point of producer `t` keeps the two invariants on
source ownership when the new point has them for `t`. -/
theorem own_set {prod_count : Nat} (files : List (List Char)) {l : List ProdPc} (t : Nat)
    (x : ProdPc)
    (h1 : ∀ u pc i, l[u]? = some pc → pc.index = some i → i % prod_count = u)
    (h2 : ∀ u pc j, l[u]? = some pc → j % prod_count = u →
      (∀ i, pc.index = some i → j < i) → files.getD j [] = [])
    (hx1 : ∀ i, x.index = some i → i % prod_count = t)
    (hx2 : ∀ j, j % prod_count = t → (∀ i, x.index = some i → j < i) → files.getD j [] = []) :
    (∀ u pc i, (l.set t x)[u]? = some pc → pc.index = some i → i % prod_count = u) ∧
    (∀ u pc j, (l.set t x)[u]? = some pc → j % prod_count = u →
      (∀ i, pc.index = some i → j < i) → files.getD j [] = []) := by
  constructor
  · intro u pc i hu hi
    rcases getElem?_set_cases hu with ⟨rfl, rfl⟩ | ⟨_, hu⟩
    · exact hx1 i hi
    · exact h1 u pc i hu hi
  · intro u pc j hu hj hlt
    rcases getElem?_set_cases hu with ⟨rfl, rfl⟩ | ⟨_, hu⟩
    · exact hx2 j hj hlt
    · exact h2 u pc j hu hj hlt

/-- A producer step that only moves the program point keeps the invariants. -/
theorem inv_set_producer {prod_count : Nat} {kw : List CStr} {files0 : List (List Char)}
    {s : State} (h : Inv prod_count kw files0 s) {t : Nat} {old : ProdPc}
    (hpc : s.producers[t]? = some old) (x : ProdPc)
    (hflag : x.done_flag = old.done_flag) (hhand : x.in_hand = old.in_hand)
    (hx1 : ∀ i, x.index = some i → i % prod_count = t)
    (hx2 : ∀ j, j % prod_count = t → (∀ i, x.index = some i → j < i) →
      s.files.getD j [] = []) :
    Inv prod_count kw files0 { s with producers := s.producers.set t x } := by
  obtain ⟨ho1, ho2⟩ := own_set s.files t x h.own_index h.own_files hx1 hx2
  exact {
    queue := h.queue
    nprod := by simp [h.nprod]
    done_count := by
      have h1 := sum_map_set ProdPc.done_flag s.producers t old x hpc
      have h2 := h.done_count
      dsimp only
      omega
    drain := h.drain
    empty_when_finished := h.empty_when_finished
    fifo := h.fifo
    counted := h.counted
    lines_conserved := by
      intro l
      have h1 := sum_map_set (fun pc => pc.in_hand.count l) s.producers t old x hpc
      have h2 := h.lines_conserved l
      dsimp only at h1 ⊢
      rw [hhand] at h1
      omega
    own_index := ho1
    own_files := ho2 }

theorem inv_for_loop {prod_count : Nat} {kw : List CStr} {files0 : List (List Char)} {s : State}
    (h : Inv prod_count kw files0 s) {t i : Nat}
    (hpc : s.producers[t]? = some (ProdPc.for_loop i)) :
    Inv prod_count kw files0 (producer_step prod_count s t (ProdPc.for_loop i)) := by
  by_cases hi : i < s.files.length
  · simp only [producer_step, if_pos hi]
    exact inv_set_producer h hpc (ProdPc.read_fgets i) rfl rfl
      (fun i2 hi2 => h.own_index t _ i2 hpc hi2)
      (fun j hj hlt => h.own_files t _ j hpc hj hlt)
  · simp only [producer_step, if_neg hi]
    refine inv_set_producer h hpc ProdPc.done_incr rfl rfl
      (fun i2 hi2 => by simp [ProdPc.index] at hi2) (fun j hj _ => ?_)
    by_cases hji : j < i
    · refine h.own_files t _ j hpc hj (fun i2 hi2 => ?_)
      simp only [ProdPc.index, Option.some.injEq] at hi2
      omega
    · simp only [List.getD_eq_getElem?_getD]
      rw [List.getElem?_eq_none (by omega)]
      rfl

theorem eq_of_mod_eq_of_lt_add {p i j : Nat} (hij : i ≤ j) (hlt : j < i + p)
    (hmod : j % p = i % p) : j = i := by
  have h1 : (j - i) % p = 0 := Nat.sub_mod_eq_zero_of_mod_eq hmod
  have h2 : (j - i) % p = j - i := Nat.mod_eq_of_lt (by omega)
  omega

theorem inv_read_fgets {prod_count : Nat} {kw : List CStr} {files0 : List (List Char)}
    {s : State} (h : Inv prod_count kw files0 s) {t i : Nat}
    (hpc : s.producers[t]? = some (ProdPc.read_fgets i)) :
    Inv prod_count kw files0 (producer_step prod_count s t (ProdPc.read_fgets i)) := by
  have hit : i % prod_count = t := h.own_index t _ i hpc rfl
  cases hf : fgets CHAR_MAX (s.files.getD i []) with
  | none =>
    simp only [producer_step, hf]
    have hempty : s.files.getD i [] = [] := fgets_eq_none.mp hf
    refine inv_set_producer h hpc (ProdPc.for_loop (i + prod_count)) rfl rfl
      (fun i2 hi2 => ?_) (fun j hj hlt => ?_)
    · simp only [ProdPc.index, Option.some.injEq] at hi2
      subst hi2
      rw [Nat.add_mod_right]
      exact hit
    · have hlt2 := hlt (i + prod_count) rfl
      by_cases hji : j < i
      · refine h.own_files t _ j hpc hj (fun i2 hi2 => ?_)
        simp only [ProdPc.index, Option.some.injEq] at hi2
        omega
      · have : j = i := eq_of_mod_eq_of_lt_add (by omega) hlt2 (by rw [hj, hit])
        rw [this]
        exact hempty
  | some r =>
    obtain ⟨line, rest⟩ := r
    simp only [producer_step, hf]
    have hne : s.files.getD i [] ≠ [] := fun e => by
      rw [e] at hf
      simp [fgets] at hf
    have hsome : s.files[i]? = some (s.files.getD i []) := by
      simp only [List.getD_eq_getElem?_getD] at hne ⊢
      cases hx : s.files[i]? with
      | none => simp [hx] at hne
      | some fp => simp
    obtain ⟨ho1, ho2⟩ := own_set (s.files.set i rest) t
      (ProdPc.read_enqueue i (c_str line))
      h.own_index
      (fun u pc j hu hj hlt => by
        have hji : j ≠ i := by
          intro e
          subst e
          have := h.own_index u pc
          cases hidx : pc.index with
          | none =>
            have := h.own_files u pc j hu hj (fun i2 hi2 => by simp [hidx] at hi2)
            exact hne this
          | some i2 =>
            have h1 := h.own_index u pc i2 hu hidx
            have h2 := hlt i2 hidx
            have h3 := h.own_files u pc j hu hj (fun i3 hi3 => by
              rw [hidx] at hi3
              simp only [Option.some.injEq] at hi3
              omega)
            exact hne h3
        rw [getD_set_ne _ _ _ hji]
        exact h.own_files u pc j hu hj hlt)
      (fun i2 hi2 => by
        simp only [ProdPc.index, Option.some.injEq] at hi2
        subst hi2
        exact hit)
      (fun j hj hlt => by
        have hlt2 := hlt i rfl
        rw [getD_set_ne _ _ _ (by omega)]
        refine h.own_files t _ j hpc hj (fun i2 hi2 => ?_)
        simp only [ProdPc.index, Option.some.injEq] at hi2
        omega)
    exact {
      queue := h.queue
      nprod := by simp [h.nprod]
      done_count := by
        have h1 := sum_map_set ProdPc.done_flag s.producers t _
          (ProdPc.read_enqueue i (c_str line)) hpc
        have h2 := h.done_count
        simp only [ProdPc.done_flag] at h1
        dsimp only
        omega
      drain := h.drain
      empty_when_finished := h.empty_when_finished
      fifo := h.fifo
      counted := h.counted
      lines_conserved := by
        intro l
        have h1 := sum_map_set (fun pc => pc.in_hand.count l) s.producers t _
          (ProdPc.read_enqueue i (c_str line)) hpc
        have h2 := h.lines_conserved l
        have h3 := sum_map_set (fun fp => (file_lines fp).count l) s.files i _ rest hsome
        have h4 : (file_lines (s.files.getD i [])).count l
            = (file_lines rest).count l + [c_str line].count l := by
          rw [file_lines_some hf, List.count_cons, List.count_cons, List.count_nil]
          omega
        have h5 : (ProdPc.read_enqueue i (c_str line)).in_hand = [c_str line] := rfl
        have h6 : (ProdPc.read_fgets i).in_hand.count l = 0 := rfl
        dsimp only at h1 h3 ⊢
        rw [h5] at h1
        rw [h6] at h1
        omega
      own_index := ho1
      own_files := ho2 }

/-- When a consumer is past its first loop, every producer has finished. -/
theorem producers_finished_of_drain {prod_count : Nat} {kw : List CStr}
    {files0 : List (List Char)} {s : State} (h : Inv prod_count kw files0 s)
    (hd : prod_count ≤ s.prod_done) : ∀ pc ∈ s.producers, pc = ProdPc.finished := by
  apply all_finished_of_sum
  rw [h.nprod, ← h.done_count]
  exact hd

theorem inv_read_enqueue {prod_count : Nat} {kw : List CStr} {files0 : List (List Char)}
    {s : State} (h : Inv prod_count kw files0 s) {t i : Nat} {line : CStr}
    (hpc : s.producers[t]? = some (ProdPc.read_enqueue i line)) :
    Inv prod_count kw files0 (producer_step prod_count s t (ProdPc.read_enqueue i line)) := by
  simp only [producer_step]
  obtain ⟨addrs, hq⟩ := h.queue
  obtain ⟨ho1, ho2⟩ := own_set s.files t (ProdPc.read_fgets i) h.own_index h.own_files
    (fun i2 hi2 => h.own_index t _ i2 hpc hi2)
    (fun j hj hlt => h.own_files t _ j hpc hj hlt)
  have hnodrain : ∀ c ∈ s.consumers, c.in_drain = true → False := by
    intro c hc hd
    have hall := producers_finished_of_drain h (h.drain c hc hd)
    have := hall _ (List.getElem?_mem hpc)
    cases this
  exact {
    queue := ⟨_, queueInv_enqueue hq line⟩
    nprod := by simp [h.nprod]
    done_count := by
      have h1 := sum_map_set ProdPc.done_flag s.producers t _ (ProdPc.read_fgets i) hpc
      have h2 := h.done_count
      simp only [ProdPc.done_flag] at h1
      dsimp only
      omega
    drain := h.drain
    empty_when_finished := fun hfin => (hnodrain _ hfin rfl).elim
    fifo := by
      dsimp only
      rw [queueInv_enqueue_lines hq, h.fifo, List.append_assoc]
    counted := h.counted
    lines_conserved := by
      intro l
      have h1 := sum_map_set (fun pc => pc.in_hand.count l) s.producers t _
        (ProdPc.read_fgets i) hpc
      have h2 := h.lines_conserved l
      have h5 : (ProdPc.read_enqueue i line).in_hand = [line] := rfl
      have h6 : (ProdPc.read_fgets i).in_hand.count l = 0 := rfl
      dsimp only at h1 ⊢
      rw [h5] at h1
      rw [h6] at h1
      rw [List.count_append]
      omega
    own_index := ho1
    own_files := ho2 }

theorem inv_done_incr {prod_count : Nat} {kw : List CStr} {files0 : List (List Char)}
    {s : State} (h : Inv prod_count kw files0 s) {t : Nat}
    (hpc : s.producers[t]? = some ProdPc.done_incr) :
    Inv prod_count kw files0 (producer_step prod_count s t ProdPc.done_incr) := by
  simp only [producer_step]
  obtain ⟨ho1, ho2⟩ := own_set s.files t ProdPc.finished h.own_index h.own_files
    (fun i2 hi2 => by simp [ProdPc.index] at hi2)
    (fun j hj _ => h.own_files t _ j hpc hj (fun i2 hi2 => by simp [ProdPc.index] at hi2))
  exact {
    queue := h.queue
    nprod := by simp [h.nprod]
    done_count := by
      have h1 := sum_map_set ProdPc.done_flag s.producers t _ ProdPc.finished hpc
      have h2 := h.done_count
      simp only [ProdPc.done_flag] at h1
      dsimp only
      omega
    drain := fun c hc hd => Nat.le_succ_of_le (h.drain c hc hd)
    empty_when_finished := h.empty_when_finished
    fifo := h.fifo
    counted := h.counted
    lines_conserved := by
      intro l
      have h1 := sum_map_set (fun pc => pc.in_hand.count l) s.producers t _
        ProdPc.finished hpc
      have h2 := h.lines_conserved l
      have h5 : ProdPc.finished.in_hand.count l = 0 := rfl
      have h6 : ProdPc.done_incr.in_hand.count l = 0 := rfl
      dsimp only at h1 ⊢
      rw [h5, h6] at h1
      omega
    own_index := ho1
    own_files := ho2 }

/-- Every step of a producer keeps the invariants. -/
theorem inv_producer_step {prod_count : Nat} {kw : List CStr} {files0 : List (List Char)}
    {s : State} (h : Inv prod_count kw files0 s) {t : Nat} {pc : ProdPc}
    (hpc : s.producers[t]? = some pc) :
    Inv prod_count kw files0 (producer_step prod_count s t pc) := by
  cases pc with
  | for_loop i => exact inv_for_loop h hpc
  | read_fgets i => exact inv_read_fgets h hpc
  | read_enqueue i line => exact inv_read_enqueue h hpc
  | done_incr => exact inv_done_incr h hpc
  | finished => exact h

/-- A consumer step that only moves the program point keeps the invariants. -/
theorem inv_set_consumer {prod_count : Nat} {kw : List CStr} {files0 : List (List Char)}
    {s : State} (h : Inv prod_count kw files0 s) {c : Nat} {old : ConsPc}
    (hpc : s.consumers[c]? = some old) (x : ConsPc)
    (hpend : x.pending = old.pending)
    (hdrain : x.in_drain = true → prod_count ≤ s.prod_done)
    (hfin : x = ConsPc.finished → s.queue.queue_head = none) :
    Inv prod_count kw files0 { s with consumers := s.consumers.set c x } where
  queue := h.queue
  nprod := h.nprod
  done_count := h.done_count
  drain := by
    intro c2 hc2 hd
    rcases List.mem_or_eq_of_mem_set hc2 with hc2 | rfl
    · exact h.drain c2 hc2 hd
    · exact hdrain hd
  empty_when_finished := by
    intro hc2
    rcases List.mem_or_eq_of_mem_set hc2 with hc2 | hc2
    · exact h.empty_when_finished hc2
    · exact hfin hc2.symm
  fifo := h.fifo
  counted := by
    intro j
    have h1 := sum_map_set (fun c => c.pending.count j) s.consumers c old x hpc
    obtain ⟨n, hn, h2⟩ := h.counted j
    refine ⟨n, hn, ?_⟩
    dsimp only at h1 ⊢
    rw [hpend] at h1
    omega
  lines_conserved := h.lines_conserved
  own_index := h.own_index
  own_files := h.own_files

theorem loop_head_pending (drain : Bool) : (ConsPc.loop_head drain).pending = [] := by
  cases drain <;> rfl

theorem loop_head_in_drain (drain : Bool) : (ConsPc.loop_head drain).in_drain = drain := by
  cases drain <;> rfl

theorem loop_head_ne_finished (drain : Bool) : ConsPc.loop_head drain ≠ ConsPc.finished := by
  cases drain <;> simp [ConsPc.loop_head]

theorem inv_deq_critical {prod_count : Nat} {kw : List CStr} {files0 : List (List Char)}
    {s : State} (h : Inv prod_count kw files0 s) {c : Nat} {drain : Bool}
    (hpc : s.consumers[c]? = some (ConsPc.deq_critical drain)) :
    Inv prod_count kw files0
      (consumer_step prod_count kw s c (ConsPc.deq_critical drain)) := by
  obtain ⟨addrs, hq⟩ := h.queue
  have hdr : drain = true → prod_count ≤ s.prod_done := fun hd =>
    h.drain _ (List.getElem?_mem hpc) hd
  cases addrs with
  | nil =>
    have hnil := queueInv_dequeue_critical_nil hq
    simp only [consumer_step, hnil]
    exact inv_set_consumer h hpc (ConsPc.loop_head drain) (loop_head_pending drain)
      (fun hd => hdr (by rw [loop_head_in_drain] at hd; exact hd))
      (fun e => absurd e (loop_head_ne_finished drain))
  | cons a rest =>
    obtain ⟨h1, h2, h3⟩ := queueInv_dequeue_critical_cons hq
    simp only [consumer_step, h1]
    have hhead : s.queue.queue_head = some a := hq.linked.1
    exact {
      queue := ⟨rest, h2⟩
      nprod := h.nprod
      done_count := h.done_count
      drain := by
        intro c2 hc2 hd
        rcases List.mem_or_eq_of_mem_set hc2 with hc2 | rfl
        · exact h.drain c2 hc2 hd
        · exact hdr hd
      empty_when_finished := by
        intro hc2
        rcases List.mem_or_eq_of_mem_set hc2 with hc2 | hc2
        · have := h.empty_when_finished hc2
          rw [hhead] at this
          cases this
        · cases hc2
      fifo := by
        dsimp only
        rw [h.fifo, queueInv_lines hq, queueInv_lines h2, h3]
        simp
      counted := by
        intro j
        have e1 := sum_map_set (fun c => c.pending.count j) s.consumers c _
          (ConsPc.tokenizing drain (tokenize_incrs (data_of s.queue.heap a) kw)) hpc
        obtain ⟨n, hn, e2⟩ := h.counted j
        refine ⟨n, hn, ?_⟩
        have e3 : (ConsPc.deq_critical drain).pending.count j = 0 := rfl
        have e4 : (ConsPc.tokenizing drain (tokenize_incrs (data_of s.queue.heap a) kw)).pending
            = tokenize_incrs (data_of s.queue.heap a) kw := rfl
        dsimp only at e1 ⊢
        rw [e3, e4] at e1
        rw [List.map_append, List.sum_append, List.map_cons, List.map_nil, List.sum_cons,
          List.sum_nil]
        omega
      lines_conserved := h.lines_conserved
      own_index := h.own_index
      own_files := h.own_files }

theorem inv_tokenizing {prod_count : Nat} {kw : List CStr} {files0 : List (List Char)}
    {s : State} (h : Inv prod_count kw files0 s) {c : Nat} {drain : Bool} {incrs : List Nat}
    (hpc : s.consumers[c]? = some (ConsPc.tokenizing drain incrs)) :
    Inv prod_count kw files0
      (consumer_step prod_count kw s c (ConsPc.tokenizing drain incrs)) := by
  have hdr : drain = true → prod_count ≤ s.prod_done := fun hd =>
    h.drain _ (List.getElem?_mem hpc) hd
  cases incrs with
  | nil =>
    simp only [consumer_step]
    exact inv_set_consumer h hpc (ConsPc.loop_head drain) (loop_head_pending drain)
      (fun hd => hdr (by rw [loop_head_in_drain] at hd; exact hd))
      (fun e => absurd e (loop_head_ne_finished drain))
  | cons i incrs =>
    simp only [consumer_step]
    exact {
      queue := h.queue
      nprod := h.nprod
      done_count := h.done_count
      drain := by
        intro c2 hc2 hd
        rcases List.mem_or_eq_of_mem_set hc2 with hc2 | rfl
        · exact h.drain c2 hc2 hd
        · exact hdr hd
      empty_when_finished := by
        intro hc2
        rcases List.mem_or_eq_of_mem_set hc2 with hc2 | hc2
        · exact h.empty_when_finished hc2
        · cases hc2
      fifo := h.fifo
      counted := by
        intro j
        have e1 := sum_map_set (fun c => c.pending.count j) s.consumers c _
          (ConsPc.tokenizing drain incrs) hpc
        obtain ⟨n, hn, e2⟩ := h.counted j
        have e3 : (ConsPc.tokenizing drain (i :: incrs)).pending.count j
            = incrs.count j + (if j = i then 1 else 0) := by
          show (i :: incrs).count j = _
          rw [List.count_cons]
          by_cases hji : j = i
          · subst hji; simp
          · have : ¬ i = j := fun e => hji e.symm
            simp [hji, this]
        have e4 : (ConsPc.tokenizing drain incrs).pending = incrs := rfl
        refine ⟨n + (if j = i then 1 else 0), ?_, ?_⟩
        · show incr s.table i j = _
          rw [incr_apply, hn, ← Function.iterate_add_apply, Nat.add_comm]
        · dsimp only at e1 ⊢
          rw [e3, e4] at e1
          omega
      lines_conserved := h.lines_conserved
      own_index := h.own_index
      own_files := h.own_files }

/-- Every step of a consumer keeps the invariants. -/
theorem inv_consumer_step {prod_count : Nat} {kw : List CStr} {files0 : List (List Char)}
    {s : State} (h : Inv prod_count kw files0 s) {c : Nat} {pc : ConsPc}
    (hpc : s.consumers[c]? = some pc) :
    Inv prod_count kw files0 (consumer_step prod_count kw s c pc) := by
  have hdr : pc.in_drain = true → prod_count ≤ s.prod_done := fun hd =>
    h.drain _ (List.getElem?_mem hpc) hd
  cases pc with
  | wait_loop =>
    by_cases hlt : s.prod_done < prod_count
    · simp only [consumer_step, if_pos hlt]
      exact inv_set_consumer h hpc _ rfl (fun hd => by cases hd) (fun e => by cases e)
    · simp only [consumer_step, if_neg hlt]
      exact inv_set_consumer h hpc _ rfl (fun _ => by omega) (fun e => by cases e)
  | drain_loop =>
    by_cases hhead : s.queue.queue_head = none
    · simp only [consumer_step, if_pos hhead]
      exact inv_set_consumer h hpc _ rfl (fun _ => hdr rfl) (fun _ => hhead)
    · simp only [consumer_step, if_neg hhead]
      exact inv_set_consumer h hpc _ rfl (fun _ => hdr rfl) (fun e => by cases e)
  | deq_test drain =>
    by_cases hhead : s.queue.queue_head = none
    · simp only [consumer_step, if_pos hhead]
      exact inv_set_consumer h hpc _ (loop_head_pending drain)
        (fun hd => hdr (by rw [loop_head_in_drain] at hd; exact hd))
        (fun e => absurd e (loop_head_ne_finished drain))
    · simp only [consumer_step, if_neg hhead]
      exact inv_set_consumer h hpc _ rfl (fun hd => hdr hd) (fun e => by cases e)
  | deq_critical drain => exact inv_deq_critical h hpc
  | tokenizing drain incrs => exact inv_tokenizing h hpc
  | finished => exact h

/-- Every step of the parallel region keeps the invariants. -/
theorem inv_step {prod_count : Nat} {kw : List CStr} {files0 : List (List Char)} {s : State}
    (h : Inv prod_count kw files0 s) (id : Nat) :
    Inv prod_count kw files0 (step prod_count kw s id) := by
  unfold step
  split
  · split
    · next pc hpc => exact inv_producer_step h hpc
    · exact h
  · split
    · next pc hpc => exact inv_consumer_step h hpc
    · exact h

/-- The invariants hold in every state that `prod_cons` can reach. -/
theorem inv_run (prod_count cons_count : Nat) (files : List (List Char)) (kw : List CStr)
    (sched : List Nat) : Inv prod_count kw files (run prod_count cons_count files kw sched) := by
  unfold run
  have : ∀ (sched : List Nat) (s : State), Inv prod_count kw files s →
      Inv prod_count kw files (sched.foldl (step prod_count kw) s) := by
    intro sched
    induction sched with
    | nil => exact fun s h => h
    | cons id sched ih => exact fun s h => ih _ (inv_step h id)
  exact this sched _ (inv_initial prod_count cons_count kw files)

/-! ## The parallel region: what a finished run has computed -/

theorem perm_of_count_eq {l1 l2 : List CStr} (h : ∀ a, l1.count a = l2.count a) :
    l1.Perm l2 := by
  rw [List.perm_iff_count]
  intro a
  have e : ∀ l : List CStr, @List.count _ instBEqOfDecidableEq a l = l.count a := by
    intro l
    unfold List.count
    congr 1
    funext b
    rw [Bool.eq_iff_iff]
    simp
  rw [e, e]
  exact h a

theorem step_consumers_length (prod_count : Nat) (kw : List CStr) (s : State) (id : Nat) :
    (step prod_count kw s id).consumers.length = s.consumers.length := by
  unfold step
  split
  · split
    · next pc _ =>
      cases pc <;> simp only [producer_step] <;> (try split) <;> rfl
    · rfl
  · split
    · next pc _ =>
      cases pc with
      | tokenizing drain incrs => cases incrs <;> simp [consumer_step]
      | _ => simp only [consumer_step] <;> (try split) <;> simp
    · rfl

theorem run_consumers_length (prod_count cons_count : Nat) (files : List (List Char))
    (kw : List CStr) (sched : List Nat) :
    (run prod_count cons_count files kw sched).consumers.length = cons_count := by
  unfold run
  have : ∀ (sched : List Nat) (s : State),
      (sched.foldl (step prod_count kw) s).consumers.length = s.consumers.length := by
    intro sched
    induction sched with
    | nil => exact fun s => rfl
    | cons id sched ih => exact fun s => (ih _).trans (step_consumers_length _ _ _ _)
  rw [this]
  simp [initial]

/-- Once a consumer has finished: all producers are done and the queue is
empty, so every line enqueued has been dequeued. -/
theorem inv_consumer_finished {prod_count : Nat} {kw : List CStr} {files0 : List (List Char)}
    {s : State} (h : Inv prod_count kw files0 s) (hfin : ConsPc.finished ∈ s.consumers) :
    s.prod_done = prod_count ∧ (∀ pc ∈ s.producers, pc = ProdPc.finished) ∧
      s.queue.queue_head = none ∧ s.queue.queue_tail = none ∧ s.queue.lines = [] ∧
      s.dequeued = s.enqueued := by
  have hd : prod_count ≤ s.prod_done := h.drain _ hfin rfl
  have hle : s.prod_done ≤ prod_count := by
    rw [h.done_count, ← h.nprod]
    exact done_flag_sum_le _
  have hhead := h.empty_when_finished hfin
  obtain ⟨addrs, hq⟩ := h.queue
  have haddrs : addrs = [] := by
    cases addrs with
    | nil => rfl
    | cons a rest =>
      have := hq.linked.1
      rw [hhead] at this
      cases this
  subst haddrs
  have hlines : s.queue.lines = [] := by rw [queueInv_lines hq]; rfl
  refine ⟨Nat.le_antisymm hle hd, producers_finished_of_drain h hd, hhead, hq.tail, hlines, ?_⟩
  rw [h.fifo, hlines, List.append_nil]

/-- When every thread has finished (at least one producer, at least one
consumer): the lines enqueued are the lines of the sources in some order, each
was dequeued, and counter `j` has been incremented from zero once for every
token equal to keyword `j` over all lines of all sources. -/
theorem inv_all_finished {prod_count : Nat} {kw : List CStr} {files0 : List (List Char)}
    {s : State} (h : Inv prod_count kw files0 s) (hp : 1 ≤ prod_count)
    (hc : s.consumers ≠ []) (hall : s.all_finished) :
    s.enqueued.Perm (all_lines files0) ∧ s.dequeued = s.enqueued ∧
      ∀ j, s.table j = int_succ^[line_token_count kw files0 j] 0 := by
  obtain ⟨hprod, hcons⟩ := hall
  have hfin : ConsPc.finished ∈ s.consumers := by
    cases hcs : s.consumers with
    | nil => exact absurd hcs hc
    | cons c rest =>
      have := hcons c (by rw [hcs]; exact List.mem_cons_self _ _)
      rw [this]
      exact List.mem_cons_self _ _
  obtain ⟨_, _, _, _, _, hdeq⟩ := inv_consumer_finished h hfin
  have hhand : ∀ l, (s.producers.map (fun pc => pc.in_hand.count l)).sum = 0 := by
    intro l
    apply sum_map_eq_zero
    intro pc hpc
    rw [hprod pc hpc]
    rfl
  have hfiles : ∀ fp ∈ s.files, fp = [] := by
    intro fp hfp
    obtain ⟨j, hj⟩ := List.mem_iff_getElem?.mp hfp
    have hlt : j % prod_count < s.producers.length := by
      rw [h.nprod]
      exact Nat.mod_lt _ hp
    have hpc : s.producers[j % prod_count]? = some s.producers[j % prod_count] :=
      List.getElem?_eq_getElem hlt
    have hpcfin := hprod _ (List.getElem?_mem hpc)
    have := h.own_files (j % prod_count) _ j hpc rfl (fun i hi => by
      rw [hpcfin] at hi
      simp [ProdPc.index] at hi)
    simp only [List.getD_eq_getElem?_getD, hj, Option.getD_some] at this
    exact this
  have hrest : ∀ l, (s.files.map (fun fp => (file_lines fp).count l)).sum = 0 := by
    intro l
    apply sum_map_eq_zero
    intro fp hfp
    rw [hfiles fp hfp]
    rfl
  have hperm : s.enqueued.Perm (all_lines files0) := by
    apply perm_of_count_eq
    intro l
    have := h.lines_conserved l
    rw [hhand l, hrest l] at this
    omega
  refine ⟨hperm, hdeq, fun j => ?_⟩
  have hpend : (s.consumers.map (fun c => c.pending.count j)).sum = 0 := by
    apply sum_map_eq_zero
    intro c hc2
    rw [hcons c hc2]
    rfl
  obtain ⟨n, hn, hcnt⟩ := h.counted j
  rw [hpend, Nat.add_zero, hdeq] at hcnt
  rw [hn, hcnt, line_token_count]
  have hmap : (s.enqueued.map (fun line => (tokenize_incrs line kw).count j)).Perm
      ((all_lines files0).map (fun line => (tokenize_incrs line kw).count j)) :=
    hperm.map _
  rw [hmap.sum_eq]
  congr 2
  apply List.map_congr_left
  intro line _
  exact tokenize_incrs_count line kw j

/-- **C4.** A consumer never terminates while unprocessed lines remain.  In
every state that the parallel region of `prod_cons` can reach (the steps of the
threads interleaved in any order, each critical section and each atomic
increment one step), if some consumer has left both of its loops then
`prod_done` equals `prod_count`, every producer has finished, and the queue is
empty (`queue_head` and `queue_tail` are `NULL`), so every line that was
enqueued has been dequeued. -/
theorem consumer_exit_means_drained (prod_count cons_count : Nat) (files : List (List Char))
    (kw : List CStr) (sched : List Nat)
    (hfin : ConsPc.finished ∈ (run prod_count cons_count files kw sched).consumers) :
    (run prod_count cons_count files kw sched).prod_done = prod_count ∧
    (∀ pc ∈ (run prod_count cons_count files kw sched).producers, pc = ProdPc.finished) ∧
    (run prod_count cons_count files kw sched).queue.queue_head = none ∧
    (run prod_count cons_count files kw sched).queue.queue_tail = none ∧
    (run prod_count cons_count files kw sched).queue.lines = [] ∧
    (run prod_count cons_count files kw sched).dequeued
      = (run prod_count cons_count files kw sched).enqueued :=
  inv_consumer_finished (inv_run prod_count cons_count files kw sched) hfin

set_option maxRecDepth 100000 in
/-- Instance of C4: one producer and two consumers on the source
"foo bar foo\nbaz foo\n", ten rounds of a round-robin schedule; both consumers
have finished, and `prod_done = 1`, the queue is empty, the two lines enqueued
were dequeued. -/
theorem consumer_exit_means_drained_witness :
    ConsPc.finished ∈ (run 1 2 ["foo bar foo\nbaz foo\n".toList]
      ["foo".toList, "bar".toList] (round_robin 3 10)).consumers ∧
    (run 1 2 ["foo bar foo\nbaz foo\n".toList]
      ["foo".toList, "bar".toList] (round_robin 3 10)).prod_done = 1 ∧
    (run 1 2 ["foo bar foo\nbaz foo\n".toList]
      ["foo".toList, "bar".toList] (round_robin 3 10)).queue.queue_head = none ∧
    (run 1 2 ["foo bar foo\nbaz foo\n".toList]
      ["foo".toList, "bar".toList] (round_robin 3 10)).dequeued
      = ["foo bar foo\n".toList, "baz foo\n".toList] :=
  ⟨by decide,
    (consumer_exit_means_drained 1 2 ["foo bar foo\nbaz foo\n".toList]
      ["foo".toList, "bar".toList] (round_robin 3 10) (by decide)).1,
    (consumer_exit_means_drained 1 2 ["foo bar foo\nbaz foo\n".toList]
      ["foo".toList, "bar".toList] (round_robin 3 10) (by decide)).2.2.1,
    by decide⟩

theorem foldl_tokenize_apply (kw : List CStr) (j : Nat) :
    ∀ (lines : List CStr) (table : Table),
      lines.foldl (fun t line => tokenize line kw t) table j
        = int_succ^[(lines.map (fun line => keyword_hits kw j (space_tokens line))).sum]
            (table j)
  | [], _ => rfl
  | line :: lines, table => by
    rw [List.foldl_cons, foldl_tokenize_apply kw j lines, tokenize_apply, List.map_cons,
      List.sum_cons, ← Function.iterate_add_apply, Nat.add_comm]

theorem run_consumers_ne_nil (prod_count cons_count : Nat) (files : List (List Char))
    (kw : List CStr) (sched : List Nat) (hc : 1 ≤ cons_count) :
    (run prod_count cons_count files kw sched).consumers ≠ [] := by
  intro e
  have := run_consumers_length prod_count cons_count files kw sched
  rw [e] at this
  simp at this
  omega

/-! ## Table capacity -/

theorem space_tokens_length_aux :
    ∀ (n : Nat) (s : CStr), s.length < n → 2 * (space_tokens s).length ≤ s.length + 1
  | 0, _, h => by omega
  | n + 1, s, h => by
    rw [← space_tokens_dropWhile s]
    have hlen := dropWhile_length_le (fun c => c == ' ') s
    cases hd : s.dropWhile (fun c => c == ' ') with
    | nil => simp [space_tokens_nil]
    | cons c rest =>
      rw [hd, List.length_cons] at hlen
      have hc : ¬ (c == ' ') = true := by
        have := List.head_dropWhile_not (fun c => c == ' ') s (by rw [hd]; simp)
        simpa [hd] using this
      rw [space_tokens_token c rest hc, List.length_cons]
      have hsplit := congrArg List.length
        (List.takeWhile_append_dropWhile (fun x => !(x == ' ')) (c :: rest))
      rw [List.length_append] at hsplit
      have htok : 1 ≤ ((c :: rest).takeWhile (fun x => !(x == ' '))).length := by
        rw [List.takeWhile_cons, if_pos (by simpa using hc)]
        simp
      cases hr : (c :: rest).dropWhile (fun x => !(x == ' ')) with
      | nil =>
        rw [hr] at hsplit
        simp only [List.tail_nil, space_tokens_nil, List.length_nil] at hsplit ⊢
        omega
      | cons d r =>
        rw [hr] at hsplit
        simp only [List.tail_cons, List.length_cons] at hsplit ⊢
        have ih := space_tokens_length_aux n r (by omega)
        omega

/-- A string of `n` characters holds at most `(n + 1) / 2` tokens. -/
theorem space_tokens_length (s : CStr) : 2 * (space_tokens s).length ≤ s.length + 1 :=
  space_tokens_length_aux (s.length + 1) s (Nat.lt_succ_self _)

theorem fgets_read_length : ∀ (k : Nat) (fp : List Char), (fgets_read k fp).1.length ≤ k
  | 0, _ => Nat.le_refl _
  | _ + 1, [] => Nat.zero_le _
  | k + 1, c :: fp => by
    unfold fgets_read
    split
    · simp
    · simpa using fgets_read_length k fp

theorem c_str_length_le (buf : List Char) : (c_str buf).length ≤ buf.length :=
  (List.takeWhile_sublist _).length_le

/-- The keyword list built by `main` has at most 63 keywords. -/
theorem main_keywords_length {kwfile : List Char} {kw : List CStr}
    (h : main_keywords kwfile = some kw) : kw.length ≤ 63 := by
  unfold main_keywords at h
  cases hf : fgets CHAR_MAX kwfile with
  | none => simp [hf] at h
  | some r =>
    obtain ⟨buf, rest⟩ := r
    simp only [hf, Option.some.injEq] at h
    subst h
    have h1 : tokens_loop ((c_str buf).length + 1) (strtok_r (c_str buf) [' '])
        = space_tokens (c_str buf) := tokenize_tokens_eq (c_str buf)
    rw [h1]
    have h2 := space_tokens_length (c_str buf)
    have h3 := c_str_length_le buf
    have h4 : buf.length ≤ 126 := by
      cases kwfile with
      | nil => simp [fgets] at hf
      | cons c fp =>
        simp only [fgets, Option.some.injEq] at hf
        have := fgets_read_length (CHAR_MAX - 1) (c :: fp)
        rw [hf] at this
        exact this
    omega

/-- No run writes a counter at an index that is not below the number of
keywords. -/
theorem run_table_outside (prod_count cons_count : Nat) (files : List (List Char))
    (kw : List CStr) (sched : List Nat) (j : Nat) (hj : kw.length ≤ j) :
    (run prod_count cons_count files kw sched).table j = 0 := by
  obtain ⟨n, hn, h⟩ := (inv_run prod_count cons_count files kw sched).counted j
  have hz : ((run prod_count cons_count files kw sched).dequeued.map
      (fun line => (tokenize_incrs line kw).count j)).sum = 0 := by
    apply sum_map_eq_zero
    intro line _
    exact List.count_eq_zero.mpr (fun hin => by
      have := tokenize_incrs_lt line kw j hin
      omega)
  rw [hz] at h
  have hn0 : n = 0 := by omega
  rw [hn, hn0]
  rfl

set_option maxRecDepth 100000 in
/-- Counterexample to C10 as stated: with 101 keywords (more than the 100
counters of the table) and a source whose line is the last keyword, the run of
one producer and one consumer does not fail: the line is read and enqueued, all
threads finish, 101 counts are returned, and the counter at index 100, outside
the table, was incremented. -/
theorem no_capacity_check :
    keywords_101.length = 101 ∧ TABLE_SIZE = 100 ∧
    (run 1 1 [List.replicate 101 'a'] keywords_101 (round_robin 2 9)).all_finished ∧
    (run 1 1 [List.replicate 101 'a'] keywords_101 (round_robin 2 9)).enqueued
      = [List.replicate 101 'a'] ∧
    ((run 1 1 [List.replicate 101 'a'] keywords_101 (round_robin 2 9)).counts
      keywords_101).length = 101 ∧
    (run 1 1 [List.replicate 101 'a'] keywords_101 (round_robin 2 9)).table 100 = 1 := by
  decide

/-- **C10 (amended).** Capacity is not checked at setup and there is no
CapacityError: `prod_cons` runs for any keyword list.  For every keyword list
of at most 100 keywords, no run writes a counter at an index outside the table
(every counter from index 100 on keeps its initial value).  The keyword list
that `main` builds from the first line of the keyword file, read with `fgets`
into a buffer of `CHAR_MAX = 127` bytes and split at spaces, has at most 63
keywords, so a run started by `main` stays inside the table. -/
theorem counters_stay_in_table (prod_count cons_count : Nat) (files : List (List Char))
    (kw : List CStr) (sched : List Nat) :
    (kw.length ≤ TABLE_SIZE → ∀ j, TABLE_SIZE ≤ j →
      (run prod_count cons_count files kw sched).table j = Table.zero j) ∧
    (∀ kwfile : List Char, main_keywords kwfile = some kw →
      kw.length ≤ 63 ∧ ∀ j, TABLE_SIZE ≤ j →
        (run prod_count cons_count files kw sched).table j = Table.zero j) := by
  constructor
  · intro hkw j hj
    exact run_table_outside prod_count cons_count files kw sched j (Nat.le_trans hkw hj)
  · intro kwfile hkw
    have h63 := main_keywords_length hkw
    refine ⟨h63, fun j hj => ?_⟩
    have : TABLE_SIZE = 100 := rfl
    exact run_table_outside prod_count cons_count files kw sched j (by omega)

set_option maxRecDepth 100000 in
/-- Instance of the amended C10: the keyword file "foo bar baz" gives the three
keywords "foo", "bar", "baz", and after a completed run on the source
"baz foo" the counter at index 100 is still zero. -/
theorem counters_stay_in_table_witness :
    main_keywords "foo bar baz".toList = some ["foo".toList, "bar".toList, "baz".toList] ∧
    (run 1 1 ["baz foo".toList] ["foo".toList, "bar".toList, "baz".toList]
      (round_robin 2 10)).all_finished ∧
    (run 1 1 ["baz foo".toList] ["foo".toList, "bar".toList, "baz".toList]
      (round_robin 2 10)).counts ["foo".toList, "bar".toList, "baz".toList] = [1, 0, 1] ∧
    (run 1 1 ["baz foo".toList] ["foo".toList, "bar".toList, "baz".toList]
      (round_robin 2 10)).table 100 = Table.zero 100 :=
  ⟨by decide, by decide, by decide,
    ((counters_stay_in_table 1 1 ["baz foo".toList]
      ["foo".toList, "bar".toList, "baz".toList] (round_robin 2 10)).2
      "foo bar baz".toList (by decide)).2 100 (by decide)⟩

/-! ## The parallel region: every run can be completed -/

theorem getElem?_set_same {α : Type} {l : List α} {t : Nat} {old : α} (x : α)
    (h : l[t]? = some old) : (l.set t x)[t]? = some x := by
  obtain ⟨hlt, _⟩ := List.getElem?_eq_some_iff.mp h
  exact List.getElem?_set_self hlt

/-- A step of a producer that has not finished lowers its measure. -/
theorem producer_step_decreases {prod_count : Nat} {s : State} {t : Nat} {pc : ProdPc}
    (hp : 1 ≤ prod_count) (hpc : s.producers[t]? = some pc) (hne : pc ≠ ProdPc.finished) :
    ∃ pc2, (producer_step prod_count s t pc).producers[t]? = some pc2 ∧
      (producer_step prod_count s t pc).producer_measure pc2 < s.producer_measure pc := by
  cases pc with
  | for_loop i =>
    by_cases hi : i < s.files.length
    · refine ⟨ProdPc.read_fgets i, ?_, ?_⟩
      · simp only [producer_step, if_pos hi]
        exact getElem?_set_same _ hpc
      · simp only [producer_step, if_pos hi, State.producer_measure, ProdPc.rank]
        omega
    · refine ⟨ProdPc.done_incr, ?_, ?_⟩
      · simp only [producer_step, if_neg hi]
        exact getElem?_set_same _ hpc
      · simp only [producer_step, if_neg hi, State.producer_measure, ProdPc.rank]
        omega
  | read_fgets i =>
    cases hf : fgets CHAR_MAX (s.files.getD i []) with
    | none =>
      refine ⟨ProdPc.for_loop (i + prod_count), ?_, ?_⟩
      · simp only [producer_step, hf]
        exact getElem?_set_same _ hpc
      · simp only [producer_step, hf, State.producer_measure, ProdPc.rank]
        split <;> split <;> omega
    | some r =>
      obtain ⟨line, rest⟩ := r
      have hne2 : s.files.getD i [] ≠ [] := fun e => by
        rw [e] at hf
        simp [fgets] at hf
      have hsome : s.files[i]? = some (s.files.getD i []) := by
        simp only [List.getD_eq_getElem?_getD] at hne2 ⊢
        cases hx : s.files[i]? with
        | none => simp [hx] at hne2
        | some fp => simp
      have hlt := (fgets_some hf).2
      have hsum := sum_map_set List.length s.files i _ rest hsome
      refine ⟨ProdPc.read_enqueue i (c_str line), ?_, ?_⟩
      · simp only [producer_step, hf]
        exact getElem?_set_same _ hpc
      · simp only [producer_step, hf, State.producer_measure, ProdPc.rank, List.length_set]
        split <;> omega
  | read_enqueue i line =>
    refine ⟨ProdPc.read_fgets i, ?_, ?_⟩
    · simp only [producer_step]
      exact getElem?_set_same _ hpc
    · simp only [producer_step, State.producer_measure, ProdPc.rank]
      split <;> omega
  | done_incr =>
    refine ⟨ProdPc.finished, ?_, ?_⟩
    · simp only [producer_step]
      exact getElem?_set_same _ hpc
    · simp only [producer_step, State.producer_measure, ProdPc.rank]
      omega
  | finished => exact absurd rfl hne

theorem steps_succ (prod_count : Nat) (kw : List CStr) (s : State) (id n : Nat) :
    steps prod_count kw s id (n + 1) = steps prod_count kw (step prod_count kw s id) id n := by
  simp [steps, List.replicate_succ]

/-- A producer that is given enough steps finishes. -/
theorem producer_terminates {prod_count : Nat} (kw : List CStr) {t : Nat}
    (ht : t < prod_count) :
    ∀ (m : Nat) (s : State) (pc : ProdPc), s.producers[t]? = some pc →
      s.producer_measure pc ≤ m →
      ∃ n, (steps prod_count kw s t n).producers[t]? = some ProdPc.finished
  | m, s, pc, hpc, hm => by
    by_cases hfin : pc = ProdPc.finished
    · exact ⟨0, by rw [← hfin]; exact hpc⟩
    · have hp : 1 ≤ prod_count := by omega
      obtain ⟨pc2, hpc2, hlt⟩ := producer_step_decreases hp hpc hfin
      have hstep : step prod_count kw s t = producer_step prod_count s t pc := by
        simp only [step, if_pos ht, hpc]
      cases m with
      | zero => omega
      | succ m =>
        obtain ⟨n, hn⟩ := producer_terminates kw ht m (producer_step prod_count s t pc) pc2
          hpc2 (by omega)
        exact ⟨n + 1, by rw [steps_succ, hstep]; exact hn⟩

theorem consumer_step_prod_done (prod_count : Nat) (kw : List CStr) (s : State) (c : Nat)
    (pc : ConsPc) : (consumer_step prod_count kw s c pc).prod_done = s.prod_done := by
  cases pc with
  | tokenizing drain incrs => cases incrs <;> simp [consumer_step]
  | _ => simp only [consumer_step] <;> (try split) <;> rfl

theorem loop_head_rank_le (drain empty : Bool) :
    (ConsPc.loop_head drain).rank empty ≤ (if empty then 2 else 8) := by
  cases drain <;> cases empty <;> simp [ConsPc.loop_head, ConsPc.rank]

/-- Once all producers are done, a step of a consumer that has not finished
lowers its measure. -/
theorem consumer_step_decreases {prod_count : Nat} {kw : List CStr}
    {files0 : List (List Char)} {s : State} (h : Inv prod_count kw files0 s)
    (hdone : prod_count ≤ s.prod_done) {c : Nat} {pc : ConsPc}
    (hpc : s.consumers[c]? = some pc) (hne : pc ≠ ConsPc.finished) :
    ∃ pc2, (consumer_step prod_count kw s c pc).consumers[c]? = some pc2 ∧
      (consumer_step prod_count kw s c pc).consumer_measure kw pc2
        < s.consumer_measure kw pc := by
  cases pc with
  | wait_loop =>
    have hlt : ¬ s.prod_done < prod_count := by omega
    refine ⟨ConsPc.drain_loop, ?_, ?_⟩
    · simp only [consumer_step, if_neg hlt]
      exact getElem?_set_same _ hpc
    · simp only [consumer_step, if_neg hlt, State.consumer_measure, ConsPc.rank]
      split <;> omega
  | drain_loop =>
    by_cases hhead : s.queue.queue_head = none
    · refine ⟨ConsPc.finished, ?_, ?_⟩
      · simp only [consumer_step, if_pos hhead]
        exact getElem?_set_same _ hpc
      · simp only [consumer_step, if_pos hhead, State.consumer_measure, ConsPc.rank, hhead,
          decide_True, if_true]
        omega
    · refine ⟨ConsPc.deq_test true, ?_, ?_⟩
      · simp only [consumer_step, if_neg hhead]
        exact getElem?_set_same _ hpc
      · simp only [consumer_step, if_neg hhead, State.consumer_measure, ConsPc.rank, hhead,
          decide_False]
        simp [hhead]
  | deq_test drain =>
    by_cases hhead : s.queue.queue_head = none
    · refine ⟨ConsPc.loop_head drain, ?_, ?_⟩
      · simp only [consumer_step, if_pos hhead]
        exact getElem?_set_same _ hpc
      · have := loop_head_rank_le drain true
        simp only [consumer_step, if_pos hhead, State.consumer_measure, ConsPc.rank, hhead,
          decide_True, if_true] at this ⊢
        omega
    · refine ⟨ConsPc.deq_critical drain, ?_, ?_⟩
      · simp only [consumer_step, if_neg hhead]
        exact getElem?_set_same _ hpc
      · simp only [consumer_step, if_neg hhead, State.consumer_measure, ConsPc.rank, hhead,
          decide_False]
        simp [hhead]
  | deq_critical drain =>
    obtain ⟨addrs, hq⟩ := h.queue
    cases addrs with
    | nil =>
      have hnil := queueInv_dequeue_critical_nil hq
      have hhead : s.queue.queue_head = none := hq.linked
      refine ⟨ConsPc.loop_head drain, ?_, ?_⟩
      · simp only [consumer_step, hnil]
        exact getElem?_set_same _ hpc
      · have := loop_head_rank_le drain true
        simp only [consumer_step, hnil, State.consumer_measure, ConsPc.rank, hhead,
          decide_True, if_true] at this ⊢
        omega
    | cons a rest =>
      obtain ⟨h1, h2, h3⟩ := queueInv_dequeue_critical_cons hq
      have hhead : s.queue.queue_head = some a := hq.linked.1
      refine ⟨ConsPc.tokenizing drain (tokenize_incrs (data_of s.queue.heap a) kw), ?_, ?_⟩
      · simp only [consumer_step, h1]
        exact getElem?_set_same _ hpc
      · have hl1 : s.queue.lines = data_of s.queue.heap a :: rest.map (data_of s.queue.heap) := by
          rw [queueInv_lines hq]; rfl
        have hl2 : (dequeue_critical s.queue).2.lines = rest.map (data_of s.queue.heap) := by
          rw [queueInv_lines h2, h3]
        simp only [consumer_step, h1, State.consumer_measure, ConsPc.rank, hhead, hl1, hl2,
          List.map_cons, List.sum_cons]
        simp
        omega
  | tokenizing drain incrs =>
    cases incrs with
    | nil =>
      refine ⟨ConsPc.loop_head drain, ?_, ?_⟩
      · simp only [consumer_step]
        exact getElem?_set_same _ hpc
      · have hle := loop_head_rank_le drain (decide (s.queue.queue_head = none))
        have hr : (ConsPc.tokenizing drain []).rank (decide (s.queue.queue_head = none)) = 9 :=
          rfl
        simp only [consumer_step, State.consumer_measure]
        rw [hr]
        split at hle <;> omega
    | cons i incrs =>
      refine ⟨ConsPc.tokenizing drain incrs, ?_, ?_⟩
      · simp only [consumer_step]
        exact getElem?_set_same _ hpc
      · simp only [consumer_step, State.consumer_measure, ConsPc.rank, List.length_cons]
        omega
  | finished => exact absurd rfl hne

/-- Once all producers are done, a consumer that is given enough steps
finishes. -/
theorem consumer_terminates {prod_count : Nat} {kw : List CStr} {files0 : List (List Char)}
    (c : Nat) :
    ∀ (m : Nat) (s : State) (pc : ConsPc), Inv prod_count kw files0 s →
      prod_count ≤ s.prod_done → s.consumers[c]? = some pc → s.consumer_measure kw pc ≤ m →
      ∃ n, (steps prod_count kw s (prod_count + c) n).consumers[c]? = some ConsPc.finished
  | m, s, pc, h, hdone, hpc, hm => by
    by_cases hfin : pc = ConsPc.finished
    · exact ⟨0, by rw [← hfin]; exact hpc⟩
    · obtain ⟨pc2, hpc2, hlt⟩ := consumer_step_decreases h hdone hpc hfin
      have hstep : step prod_count kw s (prod_count + c)
          = consumer_step prod_count kw s c pc := by
        have hnlt : ¬ prod_count + c < prod_count := by omega
        simp only [step, if_neg hnlt, Nat.add_sub_cancel_left, hpc]
      cases m with
      | zero => omega
      | succ m =>
        obtain ⟨n, hn⟩ := consumer_terminates c m (consumer_step prod_count kw s c pc) pc2
          (inv_consumer_step h hpc) (by rw [consumer_step_prod_done]; exact hdone)
          hpc2 (by omega)
        exact ⟨n + 1, by rw [steps_succ, hstep]; exact hn⟩

theorem foldl_step_induction {prod_count : Nat} {kw : List CStr} (P : State → Prop)
    (hstep : ∀ s id, P s → P (step prod_count kw s id)) :
    ∀ (sched : List Nat) (s : State), P s → P (sched.foldl (step prod_count kw) s)
  | [], _, h => h
  | id :: sched, s, h => foldl_step_induction P hstep sched _ (hstep s id h)

theorem consumer_step_producers (prod_count : Nat) (kw : List CStr) (s : State) (c : Nat)
    (pc : ConsPc) : (consumer_step prod_count kw s c pc).producers = s.producers := by
  cases pc with
  | tokenizing drain incrs => cases incrs <;> simp [consumer_step]
  | _ => simp only [consumer_step] <;> (try split) <;> rfl

theorem producer_step_consumers (prod_count : Nat) (s : State) (t : Nat) (pc : ProdPc) :
    (producer_step prod_count s t pc).consumers = s.consumers := by
  cases pc <;> simp only [producer_step] <;> (try split) <;> rfl

theorem producer_step_get (prod_count : Nat) (s : State) (t u : Nat) (pc : ProdPc)
    (hu : u ≠ t) : (producer_step prod_count s t pc).producers[u]? = s.producers[u]? := by
  have hne : t ≠ u := fun e => hu e.symm
  cases pc <;> simp only [producer_step] <;> (try split) <;>
    first
      | rfl
      | exact List.getElem?_set_ne hne

theorem consumer_step_get (prod_count : Nat) (kw : List CStr) (s : State) (c u : Nat)
    (pc : ConsPc) (hu : u ≠ c) :
    (consumer_step prod_count kw s c pc).consumers[u]? = s.consumers[u]? := by
  have hne : c ≠ u := fun e => hu e.symm
  cases pc with
  | tokenizing drain incrs =>
    cases incrs <;> simp only [consumer_step] <;> exact List.getElem?_set_ne hne
  | _ =>
    simp only [consumer_step] <;> (try split) <;>
      first
        | rfl
        | exact List.getElem?_set_ne hne

/-- A producer that has finished stays finished. -/
theorem step_producer_finished (prod_count : Nat) (kw : List CStr) (u : Nat) (s : State)
    (id : Nat) (h : s.producers[u]? = some ProdPc.finished) :
    (step prod_count kw s id).producers[u]? = some ProdPc.finished := by
  unfold step
  split
  · split
    · next pc hpc =>
      by_cases hu : u = id
      · subst hu
        rw [h] at hpc
        cases hpc
        exact h
      · rw [producer_step_get _ _ _ _ _ hu]
        exact h
    · exact h
  · split
    · rw [consumer_step_producers]
      exact h
    · exact h

/-- A consumer that has finished stays finished. -/
theorem step_consumer_finished (prod_count : Nat) (kw : List CStr) (u : Nat) (s : State)
    (id : Nat) (h : s.consumers[u]? = some ConsPc.finished) :
    (step prod_count kw s id).consumers[u]? = some ConsPc.finished := by
  unfold step
  split
  · split
    · rw [producer_step_consumers]
      exact h
    · exact h
  · split
    · next pc hpc =>
      by_cases hu : u = id - prod_count
      · subst hu
        rw [h] at hpc
        cases hpc
        exact h
      · rw [consumer_step_get _ _ _ _ _ _ hu]
        exact h
    · exact h

theorem inv_foldl {prod_count : Nat} {kw : List CStr} {files0 : List (List Char)}
    (sched : List Nat) (s : State) (h : Inv prod_count kw files0 s) :
    Inv prod_count kw files0 (sched.foldl (step prod_count kw) s) :=
  foldl_step_induction (Inv prod_count kw files0) (fun _ id hs => inv_step hs id) sched s h

/-- From every reachable state the first `k` producers can be brought to
their end. -/
theorem producers_can_finish (prod_count : Nat) (kw : List CStr) (files0 : List (List Char)) :
    ∀ (k : Nat) (s : State), k ≤ prod_count → Inv prod_count kw files0 s →
      ∃ sched : List Nat, ∀ u < k,
        (sched.foldl (step prod_count kw) s).producers[u]? = some ProdPc.finished
  | 0, _, _, _ => ⟨[], fun u hu => by omega⟩
  | k + 1, s, hk, h => by
    obtain ⟨sched, hs⟩ := producers_can_finish prod_count kw files0 k s (by omega) h
    have hinv := inv_foldl sched s h
    have hlt : k < (sched.foldl (step prod_count kw) s).producers.length := by
      rw [hinv.nprod]; omega
    obtain ⟨n, hn⟩ := producer_terminates kw (show k < prod_count by omega) _ _ _
      (List.getElem?_eq_getElem hlt) (Nat.le_refl _)
    refine ⟨sched ++ List.replicate n k, fun u hu => ?_⟩
    rw [List.foldl_append]
    by_cases huk : u = k
    · subst huk
      exact hn
    · exact foldl_step_induction (fun s2 => s2.producers[u]? = some ProdPc.finished)
        (fun s2 id hs2 => step_producer_finished prod_count kw u s2 id hs2) _ _
        (hs u (by omega))

theorem all_of_get {α : Type} {l : List α} {a : α} (h : ∀ u < l.length, l[u]? = some a) :
    ∀ x ∈ l, x = a := by
  intro x hx
  obtain ⟨u, hu⟩ := List.mem_iff_getElem?.mp hx
  obtain ⟨hlt, _⟩ := List.getElem?_eq_some_iff.mp hu
  have := h u hlt
  rw [hu] at this
  exact Option.some.inj this

theorem done_flag_sum_of_finished {l : List ProdPc} (h : ∀ pc ∈ l, pc = ProdPc.finished) :
    (l.map ProdPc.done_flag).sum = l.length := by
  induction l with
  | nil => rfl
  | cons a l ih =>
    rw [List.map_cons, List.sum_cons, List.length_cons, ih (fun pc hpc =>
      h pc (List.mem_cons_of_mem _ hpc)), h a (List.mem_cons_self _ _)]
    simp only [ProdPc.done_flag]
    omega

/-- Once all producers have finished, the first `k` consumers can be brought
to their end. -/
theorem consumers_can_finish (prod_count : Nat) (kw : List CStr) (files0 : List (List Char)) :
    ∀ (k : Nat) (s : State), k ≤ s.consumers.length → Inv prod_count kw files0 s →
      (∀ pc ∈ s.producers, pc = ProdPc.finished) →
      ∃ sched : List Nat, ∀ u < k,
        (sched.foldl (step prod_count kw) s).consumers[u]? = some ConsPc.finished
  | 0, _, _, _, _ => ⟨[], fun u hu => by omega⟩
  | k + 1, s, hk, h, hprod => by
    obtain ⟨sched, hs⟩ := consumers_can_finish prod_count kw files0 k s (by omega) h hprod
    have hinv := inv_foldl sched s h
    have hprod2 : ∀ u < (sched.foldl (step prod_count kw) s).producers.length,
        (sched.foldl (step prod_count kw) s).producers[u]? = some ProdPc.finished := by
      intro u hu
      rw [hinv.nprod, ← h.nprod] at hu
      refine foldl_step_induction (fun s2 => s2.producers[u]? = some ProdPc.finished)
        (fun s2 id hs2 => step_producer_finished prod_count kw u s2 id hs2) _ _ ?_
      show s.producers[u]? = some ProdPc.finished
      rw [List.getElem?_eq_getElem hu, hprod _ (List.getElem_mem _)]
    have hdone : prod_count ≤ (sched.foldl (step prod_count kw) s).prod_done := by
      rw [hinv.done_count, done_flag_sum_of_finished (all_of_get hprod2), hinv.nprod]
    have hlen : (sched.foldl (step prod_count kw) s).consumers.length = s.consumers.length :=
      foldl_step_induction (fun s2 => s2.consumers.length = s.consumers.length)
        (fun s2 id hs2 => (step_consumers_length prod_count kw s2 id).trans hs2) _ _ rfl
    have hlt : k < (sched.foldl (step prod_count kw) s).consumers.length := by
      rw [hlen]; omega
    obtain ⟨n, hn⟩ := consumer_terminates k _ _ _ hinv hdone
      (List.getElem?_eq_getElem hlt) (Nat.le_refl _)
    refine ⟨sched ++ List.replicate n (prod_count + k), fun u hu => ?_⟩
    rw [List.foldl_append]
    by_cases huk : u = k
    · subst huk
      exact hn
    · exact foldl_step_induction (fun s2 => s2.consumers[u]? = some ConsPc.finished)
        (fun s2 id hs2 => step_consumer_finished prod_count kw u s2 id hs2) _ _
        (hs u (by omega))

/-- Every run of `prod_cons` can be completed: some schedule lets all threads
finish. -/
theorem exists_complete_run (prod_count cons_count : Nat) (files : List (List Char))
    (kw : List CStr) :
    ∃ sched : List Nat, (run prod_count cons_count files kw sched).all_finished := by
  have h0 := inv_initial prod_count cons_count kw files
  obtain ⟨sched1, hs1⟩ := producers_can_finish prod_count kw files prod_count _ (Nat.le_refl _) h0
  have h1 := inv_foldl sched1 _ h0
  have hprod1 : ∀ pc ∈ (sched1.foldl (step prod_count kw)
      (initial prod_count cons_count files)).producers, pc = ProdPc.finished :=
    all_of_get (fun u hu => hs1 u (by rw [h1.nprod] at hu; exact hu))
  obtain ⟨sched2, hs2⟩ := consumers_can_finish prod_count kw files _ _ (Nat.le_refl _) h1 hprod1
  refine ⟨sched1 ++ sched2, ?_, ?_⟩
  · unfold run
    rw [List.foldl_append]
    apply all_of_get
    intro u hu
    have h2 := inv_foldl sched2 _ h1
    rw [h2.nprod] at hu
    exact foldl_step_induction (fun s2 => s2.producers[u]? = some ProdPc.finished)
      (fun s2 id hs => step_producer_finished prod_count kw u s2 id hs) _ _ (hs1 u hu)
  · unfold run
    rw [List.foldl_append]
    apply all_of_get
    intro u hu
    have hlen : (sched2.foldl (step prod_count kw) (sched1.foldl (step prod_count kw)
        (initial prod_count cons_count files))).consumers.length
        = (sched1.foldl (step prod_count kw)
          (initial prod_count cons_count files)).consumers.length :=
      foldl_step_induction (fun s2 => s2.consumers.length = (sched1.foldl (step prod_count kw)
          (initial prod_count cons_count files)).consumers.length)
        (fun s2 id hs => (step_consumers_length prod_count kw s2 id).trans hs) _ _ rfl
    exact hs2 u (by rw [hlen] at hu; exact hu)

/-! ## End-to-end results -/

/-- **C2.** Order independence.  Folding `tokenize` over any permutation of
the same lines from the same initial table yields the same table.  For every
fixed list of sources and keywords, a run of `prod_cons` can be completed for
any numbers of producers and consumers, and any two runs that have completed,
with any numbers of producers and consumers (at least one of each) and any
interleaving of the threads, end with the same table and so return the same
counts, and the lines they enqueued are the same up to order. -/
theorem counts_order_independent (files : List (List Char)) (kw : List CStr) :
    (∀ (table : Table) (lines1 lines2 : List CStr), lines1.Perm lines2 →
      lines1.foldl (fun t line => tokenize line kw t) table
        = lines2.foldl (fun t line => tokenize line kw t) table) ∧
    (∀ (p1 c1 p2 c2 : Nat) (sched1 sched2 : List Nat), 1 ≤ p1 → 1 ≤ c1 → 1 ≤ p2 → 1 ≤ c2 →
      (run p1 c1 files kw sched1).all_finished → (run p2 c2 files kw sched2).all_finished →
        (run p1 c1 files kw sched1).table = (run p2 c2 files kw sched2).table ∧
        (run p1 c1 files kw sched1).counts kw = (run p2 c2 files kw sched2).counts kw ∧
        (run p1 c1 files kw sched1).enqueued.Perm (run p2 c2 files kw sched2).enqueued) ∧
    (∀ p c : Nat, ∃ sched : List Nat, (run p c files kw sched).all_finished) := by
  refine ⟨?_, ?_, fun p c => exists_complete_run p c files kw⟩
  · intro table lines1 lines2 hperm
    funext j
    rw [foldl_tokenize_apply, foldl_tokenize_apply, (hperm.map _).sum_eq]
  · intro p1 c1 p2 c2 sched1 sched2 hp1 hc1 hp2 hc2 hall1 hall2
    have hne : ∀ (p c : Nat) (sched : List Nat), 1 ≤ c →
        (run p c files kw sched).consumers ≠ [] := by
      intro p c sched hc e
      have := run_consumers_length p c files kw sched
      rw [e] at this
      simp at this
      omega
    obtain ⟨hperm1, _, htab1⟩ :=
      inv_all_finished (inv_run p1 c1 files kw sched1) hp1 (hne p1 c1 sched1 hc1) hall1
    obtain ⟨hperm2, _, htab2⟩ :=
      inv_all_finished (inv_run p2 c2 files kw sched2) hp2 (hne p2 c2 sched2 hc2) hall2
    have htab : (run p1 c1 files kw sched1).table = (run p2 c2 files kw sched2).table := by
      funext j
      rw [htab1, htab2]
    refine ⟨htab, ?_, hperm1.trans hperm2.symm⟩
    unfold State.counts
    rw [htab]

set_option maxRecDepth 1000000 in
/-- Instance of C2 (Scenario E): ten sources and the keywords "foo", "bar"; one
producer and one consumer, and five producers and five consumers, each under a
round-robin schedule, complete and return the same counts, foo = 6, bar = 3. -/
theorem counts_order_independent_witness :
    (run 1 1 ten_sources ["foo".toList, "bar".toList] (round_robin 2 53)).all_finished ∧
    (run 5 5 ten_sources ["foo".toList, "bar".toList] (round_robin 10 15)).all_finished ∧
    (run 1 1 ten_sources ["foo".toList, "bar".toList] (round_robin 2 53)).counts
        ["foo".toList, "bar".toList]
      = (run 5 5 ten_sources ["foo".toList, "bar".toList] (round_robin 10 15)).counts
        ["foo".toList, "bar".toList] ∧
    (run 5 5 ten_sources ["foo".toList, "bar".toList] (round_robin 10 15)).counts
      ["foo".toList, "bar".toList] = [6, 3] :=
  ⟨by decide, by decide,
    ((counts_order_independent ten_sources ["foo".toList, "bar".toList]).2.1 1 1 5 5
      (round_robin 2 53) (round_robin 10 15)
      (by decide) (by decide) (by decide) (by decide) (by decide) (by decide)).2.1,
    by decide⟩

set_option maxRecDepth 100000 in
/-- **C1 (defect of the code).** Scenario A on the code: the keywords "foo",
"bar" and one source with the lines "foo bar foo" and "baz foo".  The
documented output, the frequency of each keyword, is foo = 3, bar = 1.
`read_file` enqueues each line with the newline that `fgets` stores, `tokenize`
cuts at the space only, so the last token of each line is "foo\n"; the run of
one producer and one consumer completes and returns foo = 1, bar = 1, and so
does every completed run, whatever the numbers of threads and the interleaving
(foo = 2, bar = 1 when the last line has no newline).  Scenario B, an empty
source list with the keyword "x", completes and returns x = 0. -/
theorem scenario_a_counts_differ :
    (List.range 2).map (keyword_frequency ["foo".toList, "bar".toList]
      ["foo bar foo\nbaz foo\n".toList]) = [3, 1] ∧
    file_lines "foo bar foo\nbaz foo\n".toList
      = ["foo bar foo\n".toList, "baz foo\n".toList] ∧
    tokenize_tokens "foo bar foo\n".toList = ["foo".toList, "bar".toList, "foo\n".toList] ∧
    tokenize_tokens "baz foo\n".toList = ["baz".toList, "foo\n".toList] ∧
    (run 1 1 ["foo bar foo\nbaz foo\n".toList] ["foo".toList, "bar".toList]
      (round_robin 2 14)).all_finished ∧
    (run 1 1 ["foo bar foo\nbaz foo\n".toList] ["foo".toList, "bar".toList]
      (round_robin 2 14)).counts ["foo".toList, "bar".toList] = [1, 1] ∧
    (∀ (p c : Nat) (sched : List Nat), 1 ≤ p → 1 ≤ c →
      (run p c ["foo bar foo\nbaz foo\n".toList] ["foo".toList, "bar".toList]
        sched).all_finished →
      (run p c ["foo bar foo\nbaz foo\n".toList] ["foo".toList, "bar".toList]
        sched).counts ["foo".toList, "bar".toList] = [1, 1]) ∧
    (∀ (p c : Nat) (sched : List Nat), 1 ≤ p → 1 ≤ c →
      (run p c ["foo bar foo\nbaz foo".toList] ["foo".toList, "bar".toList]
        sched).all_finished →
      (run p c ["foo bar foo\nbaz foo".toList] ["foo".toList, "bar".toList]
        sched).counts ["foo".toList, "bar".toList] = [2, 1]) ∧
    (run 1 1 [] ["x".toList] (round_robin 2 4)).all_finished ∧
    (run 1 1 [] ["x".toList] (round_robin 2 4)).counts ["x".toList] = [0] := by
  refine ⟨by decide, by decide, by decide, by decide, by decide, by decide, ?_, ?_,
    by decide, by decide⟩
  · intro p c sched hp hc hall
    obtain ⟨_, _, htab⟩ := inv_all_finished (inv_run p c _ _ sched) hp
      (run_consumers_ne_nil p c _ _ sched hc) hall
    unfold State.counts
    rw [funext htab]
    decide
  · intro p c sched hp hc hall
    obtain ⟨_, _, htab⟩ := inv_all_finished (inv_run p c _ _ sched) hp
      (run_consumers_ne_nil p c _ _ sched hc) hall
    unfold State.counts
    rw [funext htab]
    decide

/-- **C8.** Round-robin source assignment is a partition.  For every
`prod_count >= 1` and every list of sources, the producer with thread number
`id < prod_count` passes to `read_file` exactly the indices `i < file_count`
with `i mod prod_count = id`; so every index below `file_count` is read exactly
once by producer `i mod prod_count` and never by another producer, and no index
outside `[0, file_count)` is read; a producer reads its indices in increasing
order, and the lines it enqueues are all lines of its first source, then all
lines of its second source, and so on (one source is finished before the next
is started).  The same holds while the threads run interleaved: in every
reachable state a producer `t` that is inside `read_file(files[i])` has
`i mod prod_count = t`. -/
theorem round_robin_partition (prod_count : Nat) (files : List (List Char))
    (hp : 1 ≤ prod_count) :
    (∀ (id : Nat) (q : Queue), id < prod_count → ∀ i,
      i ∈ (producer prod_count files id q).2 ↔ (i < files.length ∧ i % prod_count = id)) ∧
    (∀ (id : Nat) (q : Queue) (i : Nat), id < prod_count → i < files.length →
      (producer prod_count files id q).2.count i = if i % prod_count = id then 1 else 0) ∧
    (∀ (id : Nat) (q : Queue), (producer prod_count files id q).2.Pairwise (· < ·)) ∧
    (∀ (id : Nat) (q : Queue) (addrs : List Nat), QueueInv q addrs →
      (producer prod_count files id q).1.lines
        = q.lines ++ (producer prod_count files id q).2.flatMap
            (fun i => file_lines (files.getD i []))) ∧
    (∀ (cons_count : Nat) (kw : List CStr) (sched : List Nat) (t i : Nat) (pc : ProdPc),
      (run prod_count cons_count files kw sched).producers[t]? = some pc →
      pc.index = some i → i % prod_count = t) := by
  have hspec := fun (id : Nat) (q : Queue) =>
    producer_loop_indices prod_count files hp files.length id q (Nat.le_add_left _ _)
  have hmem : ∀ (id : Nat) (q : Queue), id < prod_count → ∀ i,
      i ∈ (producer prod_count files id q).2 ↔ (i < files.length ∧ i % prod_count = id) := by
    intro id q hid i
    unfold producer
    rw [(hspec id q).1 i, exists_mul_iff_mod hid]
  refine ⟨hmem, ?_, fun id q => (hspec id q).2, ?_, fun cons_count kw sched t i pc hpc hi =>
    (inv_run prod_count cons_count files kw sched).own_index t pc i hpc hi⟩
  · intro id q i hid hi
    by_cases h : i % prod_count = id
    · rw [if_pos h]
      exact count_eq_one_of_pairwise_lt (hspec id q).2 ((hmem id q hid i).mpr ⟨hi, h⟩)
    · rw [if_neg h]
      exact List.count_eq_zero.mpr (fun hin => h ((hmem id q hid i).mp hin).2)
  · intro id q addrs hinv
    exact (producer_loop_lines prod_count files files.length id q addrs hinv).2

/-- Instance of C8: three producers and seven sources; producer 1 reads the
sources 1 and 4, in that order. -/
theorem round_robin_partition_witness :
    1 ≤ 3 ∧
    (producer 3 (List.replicate 7 "a b\n".toList) 1 Queue.empty).2 = [1, 4] ∧
    (∀ i, i ∈ (producer 3 (List.replicate 7 "a b\n".toList) 1 Queue.empty).2 ↔
      (i < (List.replicate 7 "a b\n".toList).length ∧ i % 3 = 1)) :=
  ⟨by decide, by decide,
    (round_robin_partition 3 (List.replicate 7 "a b\n".toList) (by decide)).1 1 Queue.empty
      (by decide)⟩


end OmpTokenizer
